import Mathlib

/-!
# Verification of the tournament-coloring search engines

Shallow embedding of the repository's two search engines and its supporting
data model:

* `rowInv`, `bTrans`, `compute_b_transversals` — the constraint model: the
  inverse pairing `L_inv` and the per-opponent transversal table `T`
  (`solver_bt.py` lines 116–126, `solver_fast.py` `compute_b_transversals`).
* `backtrack`, `solve_backtrack` — the exact backtracking engine
  (`solver_bt.py` `solve_backtrack`).  The recursion is rendered with an
  explicit fuel argument; the top-level call passes `fuel = n`, which is
  exactly the depth of the Python recursion.
* `saStep`, `saAttempt`, `solve_sa` — the simulated-annealing local-search
  engine (`solver_fast.py` `solve_sa`).  The pseudo-random choices of the
  engine (`rng.shuffle`, `rng.choice`, `rng.random()`) are threaded as an
  explicit oracle of moves; the floating-point acceptance test for
  energy-increasing moves is abstracted into an oracle bit, so the theorems
  hold for every possible acceptance decision.
* `buildRow`, `mkRows`, `make_random_ls` — the random Latin-square generator
  (`solver_fast.py` `make_random_ls`), again with the random source threaded
  as an explicit oracle.

Python integers are modelled by `Nat` where the program only ever holds
counts (search counters), and by `Int` where the program manipulates signed
quantities (local-search sums and energies).
-/

namespace MathTournament

/-- `L_inv[r]` computation of `solve_backtrack` / `compute_b_transversals`:
the Python loop `for i in range(n): L_inv[r][L[r][i]] = i` starts from a
zero-initialized array and overwrites, so the entry for `j` is the last
`i < n` with `row i = j` (and `0` if there is none). -/
def rowInv (n : Nat) (row : Nat → Nat) (j : Nat) : Nat :=
  (List.range n).foldl (fun acc i => if row i = j then i else acc) 0

/-- Transversal table `T` : `T[j][r] = L_inv[r][j]`, the column index whose
first/second status in round `r` feeds opponent `j`'s second-count. -/
def bTrans (n : Nat) (L : Nat → Nat → Nat) (j r : Nat) : Nat :=
  rowInv n (L r) j

/-- `compute_b_transversals` of `solver_fast.py`: `trans[j]` is the list
`[L_inv[r][j] for r in range(n)]`. -/
def compute_b_transversals (n : Nat) (L : Nat → Nat → Nat) (j : Nat) : List Nat :=
  (List.range n).map (fun r => bTrans n L j r)

/-- The Latin-square contract checked by `verify_latin_square` /
`verify_ls`: every row and every column of `L` is a permutation of
`[0,n)`. -/
def IsLatin (n : Nat) (L : Nat → Nat → Nat) : Prop :=
  (∀ r ∈ List.range n, ((List.range n).map (L r)).Perm (List.range n)) ∧
  (∀ i ∈ List.range n, ((List.range n).map (fun r => L r i)).Perm (List.range n))

instance (n : Nat) (L : Nat → Nat → Nat) : Decidable (IsLatin n L) := by
  unfold IsLatin; infer_instance

/-! ## The backtracking engine (`solver_bt.py`, `solve_backtrack`)

The mutable counter arrays `col_count` and `b_count` are threaded as
explicit functions; the in-place apply/undo of a row completion becomes the
pure functions `applyChosen` / `undoChosen` and `applyB` / `undoB`.  The
recursion of `backtrack` is structural on an explicit `fuel`; the top-level
call supplies `fuel = n`, the exact recursion depth of the Python code. -/

/-- `for i in chosen: col_count[i] += 1`. -/
def applyChosen (cc : Nat → Nat) (chosen : List Nat) : Nat → Nat :=
  chosen.foldl (fun f i => Function.update f i (f i + 1)) cc

/-- `for i in chosen: col_count[i] -= 1`. -/
def undoChosen (cc : Nat → Nat) (chosen : List Nat) : Nat → Nat :=
  chosen.foldl (fun f i => Function.update f i (f i - 1)) cc

/-- `for j in range(n): if b_trans[j][r] in chosen: b_count[j] += 1`. -/
def applyB (n : Nat) (bt : Nat → Nat → Nat) (r : Nat) (chosen : List Nat)
    (bc : Nat → Nat) : Nat → Nat :=
  (List.range n).foldl
    (fun f j => if bt j r ∈ chosen then Function.update f j (f j + 1) else f) bc

/-- `for j in range(n): if b_trans[j][r] in chosen: b_count[j] -= 1`. -/
def undoB (n : Nat) (bt : Nat → Nat → Nat) (r : Nat) (chosen : List Nat)
    (bc : Nat → Nat) : Nat → Nat :=
  (List.range n).foldl
    (fun f j => if bt j r ∈ chosen then Function.update f j (f j - 1) else f) bc

/-- Lazy enumeration of the row completions: `itertools.combinations`,
which emits the length-`k` subsequences of `xs` in lexicographic order of
positions. -/
def combinations : Nat → List Nat → List (List Nat)
  | 0, _ => [[]]
  | _ + 1, [] => []
  | k + 1, x :: xs => (combinations k xs).map (fun l => x :: l) ++ combinations (k + 1) xs

/-- The column-counter classification loop of `backtrack`: the branch is
pruned as soon as some column can no longer reach `m` even if every row
from the current one on assigns it (`col_count[i] + remain + 1 < m`, only
reachable when `col_count[i] < m`). -/
def colPrune (n m remain : Nat) (cc : Nat → Nat) : Prop :=
  ∃ i ∈ Finset.range n, cc i < m ∧ cc i + remain + 1 < m

instance (n m remain : Nat) (cc : Nat → Nat) : Decidable (colPrune n m remain cc) := by
  unfold colPrune; infer_instance

/-- Columns already at their target: `col_count[i] >= m`. -/
def colForbidden (n m : Nat) (cc : Nat → Nat) : Finset Nat :=
  (Finset.range n).filter (fun i => m ≤ cc i)

/-- Columns that must be assigned now (`col_count[i] + remain < m`, reached
through the `elif` chain, so only when neither previous test fired). -/
def colForced (n m remain : Nat) (cc : Nat → Nat) : Finset Nat :=
  (Finset.range n).filter
    (fun i => cc i < m ∧ ¬(cc i + remain + 1 < m) ∧ cc i + remain < m)

/-- Opponent counters at their target forbid their transversal column:
`if b_count[j] >= m: forbidden.add(b_i)` with `b_i = b_trans[j][r]`. -/
def bForbidden (n m r : Nat) (bt : Nat → Nat → Nat) (bc : Nat → Nat) : Finset Nat :=
  ((Finset.range n).filter (fun j => m ≤ bc j)).image (fun j => bt j r)

/-- Opponent counters that must advance force their transversal column:
`elif b_count[j] + remain < m: forced.add(b_i)`. -/
def bForced (n m remain r : Nat) (bt : Nat → Nat → Nat) (bc : Nat → Nat) : Finset Nat :=
  ((Finset.range n).filter (fun j => bc j < m ∧ bc j + remain < m)).image
    (fun j => bt j r)

/-- Row classification of `backtrack` (`solver_bt.py` lines 144–166):
`none` when the column loop prunes mid-way, otherwise the `(forced,
forbidden)` pair accumulated by the two loops. -/
def classifyRow (n m remain r : Nat) (bt : Nat → Nat → Nat) (cc bc : Nat → Nat) :
    Option (Finset Nat × Finset Nat) :=
  if colPrune n m remain cc then none
  else some (colForced n m remain cc ∪ bForced n m remain r bt bc,
    colForbidden n m cc ∪ bForbidden n m r bt bc)

/-- Modelled from the spec: the spec (§4.2) states that the engine applies
the same three classification rules — forbidden at `m`, branch-prune when
`counter + remain + 1 < m`, forced when `counter + remain < m` — to the
opponent counters `opp_count[j]` (via the index `T[j][r]`) exactly as to
the column counters; this definition follows those words. -/
def classifyRowSpec (n m remain r : Nat) (bt : Nat → Nat → Nat) (cc bc : Nat → Nat) :
    Option (Finset Nat × Finset Nat) :=
  if colPrune n m remain cc ∨
      (∃ j ∈ Finset.range n, bc j < m ∧ bc j + remain + 1 < m) then none
  else some
    (colForced n m remain cc ∪
      ((Finset.range n).filter
        (fun j => bc j < m ∧ ¬(bc j + remain + 1 < m) ∧ bc j + remain < m)).image
        (fun j => bt j r),
    colForbidden n m cc ∪ bForbidden n m r bt bc)

/-- `chosen = sorted(list(forced) + list(extra))`; since `forced ⊆
range n`, its sorted listing is the ascending filter of `range n`. -/
def chosenOf (n : Nat) (forced : Finset Nat) (extra : List Nat) : List Nat :=
  List.insertionSort (· ≤ ·) ((List.range n).filter (fun i => i ∈ forced) ++ extra)

/-- `free = [i for i in range(n) if i not in forced and i not in forbidden]`. -/
def freeOf (n : Nat) (forced forbidden : Finset Nat) : List Nat :=
  (List.range n).filter (fun i => i ∉ forced ∧ i ∉ forbidden)

/-- The post-apply feasibility check of `backtrack` (lines 193–203): every
counter still within reach of `m` given the rows that remain. -/
def feasCheck (n m remain : Nat) (cc bc : Nat → Nat) : Prop :=
  (∀ i ∈ Finset.range n, cc i ≤ m ∧ m ≤ cc i + remain) ∧
  (∀ j ∈ Finset.range n, bc j ≤ m ∧ m ≤ bc j + remain)

instance (n m remain : Nat) (cc bc : Nat → Nat) : Decidable (feasCheck n m remain cc bc) := by
  unfold feasCheck; infer_instance

/-- The `r == n` test at the head of `backtrack`: success exactly when
every counter equals `m`. -/
def btBase (n m : Nat) (cc bc : Nat → Nat) : Option (List (List Nat)) :=
  if (∀ i ∈ List.range n, cc i = m) ∧ (∀ j ∈ List.range n, bc j = m) then
    some []
  else none

/-- The per-row body of `backtrack` below the classification: the three
set-level prune guards, the free list, and the lazy enumeration of the
completions, parameterized by the continuation `next` applied to the
counters a feasible completion produces. -/
def btRow (n m remain r : Nat) (bt : Nat → Nat → Nat) (cc bc : Nat → Nat)
    (next : (Nat → Nat) → (Nat → Nat) → Option (List (List Nat))) :
    Option (List (List Nat)) :=
  match classifyRow n m remain r bt cc bc with
  | none => none
  | some (forced, forbidden) =>
    if ¬(forced ∩ forbidden = ∅) then none
    else if m < forced.card then none
    else if (n : Int) - forbidden.card < m then none
    else if (freeOf n forced forbidden).length < m - forced.card then none
    else
      (combinations (m - forced.card) (freeOf n forced forbidden)).findSome?
        (fun extra =>
          if feasCheck n m remain (applyChosen cc (chosenOf n forced extra))
              (applyB n bt r (chosenOf n forced extra) bc) then
            (next (applyChosen cc (chosenOf n forced extra))
                (applyB n bt r (chosenOf n forced extra) bc)).map
              (fun rows => chosenOf n forced extra :: rows)
          else none)

/-- The recursive search of `solve_backtrack`, building the list of per-row
chosen sets instead of returning a boolean plus a mutated `solution` list.
`fuel` makes the recursion structural; every reachable call has
`n - r ≤ fuel`, and the top-level call passes `fuel = n`, so the `0` case
with `r < n` is never reached. -/
def backtrack (n m : Nat) (bt : Nat → Nat → Nat) :
    Nat → Nat → (Nat → Nat) → (Nat → Nat) → Option (List (List Nat))
  | 0, r, cc, bc => if n ≤ r then btBase n m cc bc else none
  | fuel + 1, r, cc, bc =>
    if n ≤ r then btBase n m cc bc
    else btRow n m (n - r - 1) r bt cc bc (backtrack n m bt fuel (r + 1))

/-- `solve_backtrack`: run the search from row 0 with zeroed counters; a
successful run returns the list of per-row chosen column sets. -/
def solve_backtrack (n m : Nat) (L : Nat → Nat → Nat) : Option (List (List Nat)) :=
  backtrack n m (bTrans n L) n 0 (fun _ => 0) (fun _ => 0)

/-- The coloring matrix built from a successful search: `F[r][i] = 1` for
`i` in the row-`r` chosen set, else `0`. -/
def Fmat (rows : List (List Nat)) (r i : Nat) : Nat :=
  if i ∈ rows.getD r [] then 1 else 0

/-- Total contribution of a list of chosen sets to column counter `i`. -/
def cAdd (i : Nat) : List (List Nat) → Nat
  | [] => 0
  | row :: rest => row.count i + cAdd i rest

/-- Total contribution of a list of chosen sets, starting at row `r`, to
the opponent counter `j` (the row-`r` set contributes when it contains
`T[j][r]`). -/
def bAdd (bt : Nat → Nat → Nat) (j : Nat) : Nat → List (List Nat) → Nat
  | _, [] => 0
  | r, row :: rest => (if bt j r ∈ row then 1 else 0) + bAdd bt j (r + 1) rest

/-! ## The local-search engine (`solver_fast.py`, `solve_sa`)

Sums and energies are Python integers, modelled by `Int`.  The random
source is threaded as an explicit oracle: the shuffled initial rows are a
parameter, and each loop iteration consumes one `SAMove` holding the raw
picks (`rng.randint`, the two `rng.choice` indices) and the two acceptance
coin flips.  The floating-point temperature schedule only influences which
energy-increasing moves are accepted, so it is absorbed into the `accUp`
bit. -/

structure SAMove where
  rPick : Nat
  k1 : Nat
  k0 : Nat
  accEq : Bool
  accUp : Bool

structure SAState where
  F : Nat → Nat → Int
  colSum : Nat → Int
  btSum : Nat → Int
  energy : Int

/-- Column sums `col_sum[i] = sum(F[r][i] for r in range(n))`, as computed
at attempt initialization and re-derived by the verifier. -/
def colSums (n : Nat) (F : Nat → Nat → Int) (i : Nat) : Int :=
  ∑ r ∈ Finset.range n, F r i

/-- Opponent-transversal sums `bt_sum[j] = sum(F[r][trans[j][r]] for r in
range(n))`, as computed at attempt initialization and re-derived by the
verifier. -/
def btSums (n : Nat) (bt : Nat → Nat → Nat) (F : Nat → Nat → Int) (j : Nat) : Int :=
  ∑ r ∈ Finset.range n, F r (bt j r)

/-- The energy objective: `sum((c - m)**2 for c in col_sum) +
sum((b - m)**2 for b in bt_sum)`. -/
def energyOf (n : Nat) (m : Int) (colSum btSum : Nat → Int) : Int :=
  (∑ i ∈ Finset.range n, (colSum i - m) ^ 2) +
    ∑ j ∈ Finset.range n, (btSum j - m) ^ 2

/-- `ones = [i for i in range(n) if F[r][i] == 1]`. -/
def onesRow (n : Nat) (F : Nat → Nat → Int) (r : Nat) : List Nat :=
  (List.range n).filter (fun i => F r i = 1)

/-- `zeros = [i for i in range(n) if F[r][i] == 0]`. -/
def zerosRow (n : Nat) (F : Nat → Nat → Int) (r : Nat) : List Nat :=
  (List.range n).filter (fun i => F r i = 0)

/-- `r = rng.randint(0, n-1)`: the raw oracle pick reduced to a row. -/
def rowPick (n : Nat) (mv : SAMove) : Nat := mv.rPick % n

/-- `i1 = rng.choice(ones)`. -/
def onePick (n : Nat) (F : Nat → Nat → Int) (mv : SAMove) : Nat :=
  (onesRow n F (rowPick n mv)).getD
    (mv.k1 % (onesRow n F (rowPick n mv)).length) 0

/-- `i0 = rng.choice(zeros)`. -/
def zeroPick (n : Nat) (F : Nat → Nat → Int) (mv : SAMove) : Nat :=
  (zerosRow n F (rowPick n mv)).getD
    (mv.k0 % (zerosRow n F (rowPick n mv)).length) 0

/-- The O(1) column delta `d_col` of `solve_sa`. -/
def dColOf (m : Int) (colSum : Nat → Int) (i1 i0 : Nat) : Int :=
  (colSum i1 - 1 - m) ^ 2 - (colSum i1 - m) ^ 2 +
    ((colSum i0 + 1 - m) ^ 2 - (colSum i0 - m) ^ 2)

/-- The O(1) transversal delta `d_bt` of `solve_sa`: only the `j` with
`trans[j][r] ∈ {i1, i0}` contribute. -/
def dBtOf (n : Nat) (m : Int) (bt : Nat → Nat → Nat) (btSum : Nat → Int)
    (r i1 i0 : Nat) : Int :=
  ∑ j ∈ Finset.range n,
    (if bt j r = i1 then (btSum j - 1 - m) ^ 2 - (btSum j - m) ^ 2
      else if bt j r = i0 then (btSum j + 1 - m) ^ 2 - (btSum j - m) ^ 2
      else 0)

/-- `delta = d_col + d_bt` for the move's picks. -/
def deltaOf (n : Nat) (m : Int) (bt : Nat → Nat → Nat) (mv : SAMove)
    (s : SAState) : Int :=
  dColOf m s.colSum (onePick n s.F mv) (zeroPick n s.F mv) +
    dBtOf n m bt s.btSum (rowPick n mv) (onePick n s.F mv) (zeroPick n s.F mv)

/-- The annealing acceptance rule: always accept improving moves; accept
zero-delta moves on the `rng.random() < 0.3` coin; accept worsening moves
on the temperature coin (the floating-point `temp` schedule and
exponential are abstracted into the oracle bit `accUp`). -/
def acceptOf (delta : Int) (mv : SAMove) : Bool :=
  if delta < 0 then true else if delta = 0 then mv.accEq else mv.accUp

/-- The committed flip: `F[r][i1] = 0; F[r][i0] = 1` (in that order), the
two column-counter updates, the conditional transversal-counter updates
over `j < n`, and `energy += delta`. -/
def flipState (n : Nat) (bt : Nat → Nat → Nat) (s : SAState)
    (r i1 i0 : Nat) (delta : Int) : SAState :=
  { F := fun r' i => if r' = r ∧ i = i0 then 1
      else if r' = r ∧ i = i1 then 0 else s.F r' i,
    colSum := Function.update (Function.update s.colSum i1 (s.colSum i1 - 1)) i0
      (Function.update s.colSum i1 (s.colSum i1 - 1) i0 + 1),
    btSum := fun j => if j < n ∧ bt j r = i1 then s.btSum j - 1
      else if j < n ∧ bt j r = i0 then s.btSum j + 1 else s.btSum j,
    energy := s.energy + delta }

/-- One iteration of the annealing loop: pick a row and a 1/0 pair in it,
compute the O(1) delta, and on acceptance commit the flip and the counter
updates.  Returns the acceptance flag together with the next state. -/
def saStep (n : Nat) (m : Int) (bt : Nat → Nat → Nat) (mv : SAMove) (s : SAState) :
    Bool × SAState :=
  if acceptOf (deltaOf n m bt mv s) mv then
    (true, flipState n bt s (rowPick n mv) (onePick n s.F mv) (zeroPick n s.F mv)
      (deltaOf n m bt mv s))
  else (false, s)

/-- The from-scratch initialization of an attempt: column sums, transversal
sums and the initial energy computed directly from `F`. -/
def initState (n : Nat) (m : Int) (bt : Nat → Nat → Nat) (F0 : Nat → Nat → Int) :
    SAState :=
  { F := F0, colSum := colSums n F0, btSum := btSums n bt F0,
    energy := energyOf n m (colSums n F0) (btSums n bt F0) }

/-- The step loop of one attempt: stop with `some F` as soon as an accepted
move reaches zero energy. -/
def saLoop (n : Nat) (m : Int) (bt : Nat → Nat → Nat) :
    List SAMove → SAState → Option (Nat → Nat → Int)
  | [], _ => none
  | mv :: rest, s =>
    if (saStep n m bt mv s).1 ∧ (saStep n m bt mv s).2.energy = 0 then
      some (saStep n m bt mv s).2.F
    else saLoop n m bt rest (saStep n m bt mv s).2

/-- One attempt of `solve_sa`: build the counters from the shuffled initial
matrix, return it at once if already feasible, otherwise anneal. -/
def saAttempt (n : Nat) (m : Int) (bt : Nat → Nat → Nat) (F0 : Nat → Nat → Int)
    (moves : List SAMove) : Option (Nat → Nat → Int) :=
  if (initState n m bt F0).energy = 0 then some (initState n m bt F0).F
  else saLoop n m bt moves (initState n m bt F0)

/-- `solve_sa`: the attempt loop, returning the first converged attempt and
`none` when every attempt exhausts its step budget. -/
def solve_sa (n : Nat) (m : Int) (L : Nat → Nat → Nat)
    (attempts : List ((Nat → Nat → Int) × List SAMove)) : Option (Nat → Nat → Int) :=
  attempts.findSome? (fun a => saAttempt n m (bTrans n L) a.1 a.2)

/-- An initial attempt matrix as produced by the shuffles: every row of
`[0,n)` is binary with exactly `m` ones. -/
def ValidInit (n : Nat) (m : Int) (F0 : Nat → Nat → Int) : Prop :=
  (∀ r < n, ∀ i < n, F0 r i = 0 ∨ F0 r i = 1) ∧
  (∀ r < n, (∑ i ∈ Finset.range n, F0 r i) = m)

instance (n : Nat) (m : Int) (F0 : Nat → Nat → Int) : Decidable (ValidInit n m F0) := by
  unfold ValidInit; infer_instance

/-- Iterated `saStep`, keeping only the state: the state reached after a
sequence of proposed moves. -/
def saRun (n : Nat) (m : Int) (bt : Nat → Nat → Nat) (moves : List SAMove)
    (s : SAState) : SAState :=
  moves.foldl (fun s mv => (saStep n m bt mv s).2) s

/-! ## The random Latin-square generator (`solver_fast.py`, `make_random_ls`)

The generator's random source is threaded as an oracle: `orders r` stands
for the shuffled traversal order of row `r` (`rng.shuffle`), and
`choices r i` for the raw pick used to index the candidate list of cell
`(r, i)` (`rng.choice`).  Python iterates the `col_avail[i]` set in an
unspecified order; the model iterates it sorted, which together with the
arbitrary pick index covers every behaviour of the original. -/

/-- The inner cell loop of `make_random_ls`: fill `perm` along the shuffled
order, taking each value from the still-available, pair-unused candidates;
fail as soon as a cell has no candidate.  The Python sets `col_avail[i]`
are modelled as duplicate-free lists. -/
def buildRow (colAvail : Nat → List Nat) (pairUsed : Nat → Nat → Bool)
    (choice : Nat → Nat) : List Nat → (Nat → Option Nat) → Option (Nat → Option Nat)
  | [], perm => some perm
  | i :: rest, perm =>
    let candidates := (colAvail i).filter (fun j => ¬ pairUsed i j)
    if candidates = [] then none
    else
      let j := candidates.getD (choice i % candidates.length) 0
      buildRow colAvail pairUsed choice rest (Function.update perm i (some j))

/-- The row loop of `make_random_ls`: build each row, re-check it is a
permutation (`len(set(perm)) == n`), then retire its values from
`col_avail` and its pairs into `pair_used`. -/
def mkRows (n : Nat) (orders : Nat → List Nat) (choices : Nat → Nat → Nat) :
    List Nat → (Nat → List Nat) → (Nat → Nat → Bool) → Option (List (List Nat))
  | [], _, _ => some []
  | r :: rs, colAvail, pairUsed =>
    match buildRow colAvail pairUsed (choices r) (orders r) (fun _ => none) with
    | none => none
    | some perm =>
      if ((List.range n).map perm).dedup.length = n then
        (mkRows n orders choices rs
            (fun i => if i < n then (colAvail i).erase ((perm i).getD 0) else colAvail i)
            (fun i j => pairUsed i j || (decide (i < n) && decide ((perm i).getD 0 = j)))).map
          (fun rest => (List.range n).map (fun i => (perm i).getD 0) :: rest)
      else none

/-- `make_random_ls`: all values initially available in every column, no
pair used. -/
def make_random_ls (n : Nat) (orders : Nat → List Nat) (choices : Nat → Nat → Nat) :
    Option (List (List Nat)) :=
  mkRows n orders choices (List.range n) (fun _ => List.range n) (fun _ _ => false)

/-! ## Concrete fixtures -/

/-- A 2×2 cyclic Latin square, the `n = 2` boundary instance. -/
def L2 : Nat → Nat → Nat := fun r i => (i + r) % 2

/-- A 4×4 cyclic Latin square, the `n = 4` scenario instance. -/
def L4 : Nat → Nat → Nat := fun r i => (i + r) % 4

/-- A concrete feasible coloring for `L4` (the matrix the backtracking
engine finds), as an integer matrix for the local-search engine. -/
def F4sa : Nat → Nat → Int :=
  fun r i => if i ∈ ([[0, 1], [1, 2], [2, 3], [0, 3]].getD r []) then 1 else 0

/-- A simple valid initial matrix for the `n = 2, m = 1` boundary
instance: each row is the vector `[1, 0]`. -/
def F0w : Nat → Nat → Int := fun _ i => if i = 0 then 1 else 0

/-- The full invariant of a local-search state: `F` is binary with row
sums `m` on the `n × n` region, the tracked `col_sum` and `bt_sum` agree
with the sums recomputed from `F`, and the tracked energy agrees with the
energy recomputed from the counters. -/
def SAInv (n : Nat) (m : Int) (bt : Nat → Nat → Nat) (s : SAState) : Prop :=
  (∀ r < n, ∀ i < n, s.F r i = 0 ∨ s.F r i = 1) ∧
  (∀ r < n, (∑ i ∈ Finset.range n, s.F r i) = m) ∧
  (∀ i < n, s.colSum i = colSums n s.F i) ∧
  (∀ j < n, s.btSum j = btSums n bt s.F j) ∧
  s.energy = energyOf n m s.colSum s.btSum

section RowInvLemmas

variable (row : Nat → Nat) (j : Nat)

lemma foldl_inv_mem :
    ∀ (l : List Nat) (acc : Nat),
      l.foldl (fun acc i => if row i = j then i else acc) acc = acc ∨
        (l.foldl (fun acc i => if row i = j then i else acc) acc ∈ l ∧
          row (l.foldl (fun acc i => if row i = j then i else acc) acc) = j)
  | [], acc => Or.inl rfl
  | a :: l, acc => by
    simp only [List.foldl_cons]
    rcases foldl_inv_mem l (if row a = j then a else acc) with h | h
    · rw [h]
      by_cases ha : row a = j
      · simp [ha]
      · simp [ha]
    · exact Or.inr ⟨List.mem_cons_of_mem _ h.1, h.2⟩

lemma foldl_inv_hit :
    ∀ (l : List Nat) (acc : Nat), (∃ i ∈ l, row i = j) →
      row (l.foldl (fun acc i => if row i = j then i else acc) acc) = j
  | [], _, h => by simp at h
  | a :: l, acc, h => by
    simp only [List.foldl_cons]
    rcases foldl_inv_mem row j l (if row a = j then a else acc) with heq | hmem
    · rw [heq]
      by_cases ha : row a = j
      · simp [ha]
      · rcases h with ⟨i, hi, hij⟩
        rcases List.mem_cons.mp hi with rfl | hi
        · exact absurd hij ha
        · -- the tail contains a hit, yet the fold returned its accumulator:
          -- the fold over the tail must itself have hit it
          have := foldl_inv_hit l (if row a = j then a else acc) ⟨i, hi, hij⟩
          rw [heq] at this
          simpa [ha] using this
    · exact hmem.2

lemma rowInv_lt (n : Nat) (hn : 0 < n) : rowInv n row j < n := by
  unfold rowInv
  rcases foldl_inv_mem row j (List.range n) 0 with h | h
  · omega
  · exact List.mem_range.mp h.1

lemma rowInv_hit (n : Nat) (h : ∃ i < n, row i = j) : row (rowInv n row j) = j := by
  unfold rowInv
  exact foldl_inv_hit row j (List.range n) 0 (by simpa using h)

end RowInvLemmas

section Transversal

/-- A row (or column) that is a permutation of `[0,n)` hits every `j < n`. -/
lemma exists_preimage_of_perm {n : Nat} {f : Nat → Nat}
    (hperm : ((List.range n).map f).Perm (List.range n)) {j : Nat} (hj : j < n) :
    ∃ i < n, f i = j := by
  have hjmem : j ∈ (List.range n).map f := hperm.mem_iff.mpr (List.mem_range.mpr hj)
  rcases List.mem_map.mp hjmem with ⟨i, hi, hfi⟩
  exact ⟨i, List.mem_range.mp hi, hfi⟩

/-- A map whose image of `[0,n)` is a permutation of `[0,n)` is injective
on `[0,n)`. -/
lemma injOn_of_perm {n : Nat} {f : Nat → Nat}
    (hperm : ((List.range n).map f).Perm (List.range n)) :
    ∀ a < n, ∀ b < n, f a = f b → a = b := by
  intro a ha b hb hab
  have hnd : ((List.range n).map f).Nodup := hperm.nodup_iff.mpr (List.nodup_range n)
  have := @List.Nodup.getElem_inj_iff _ _ hnd a (by simpa using ha) b
    (by simpa using hb)
  simpa [hab] using this.mp (by simpa using hab)

/-- `T[j][r]` solves `L[r][i] = j` whenever row `r` is a permutation. -/
lemma bTrans_spec {n : Nat} {L : Nat → Nat → Nat}
    (hrow : ∀ r ∈ List.range n, ((List.range n).map (L r)).Perm (List.range n))
    {j r : Nat} (hj : j < n) (hr : r < n) : L r (bTrans n L j r) = j :=
  rowInv_hit (L r) j n
    (exists_preimage_of_perm (hrow r (List.mem_range.mpr hr)) hj)

/-- A duplicate-free list of `n` values below `n` is a permutation of
`[0,n)`. -/
lemma perm_range_of_nodup_of_lt {n : Nat} {l : List Nat} (hnd : l.Nodup)
    (hlen : l.length = n) (hlt : ∀ x ∈ l, x < n) : l.Perm (List.range n) := by
  have hsub : l.toFinset ⊆ (List.range n).toFinset := by
    intro x hx
    rw [List.mem_toFinset] at hx
    rw [List.mem_toFinset, List.mem_range]
    exact hlt x hx
  have hcard : (List.range n).toFinset.card ≤ l.toFinset.card := by
    rw [List.toFinset_card_of_nodup hnd, List.toFinset_card_of_nodup (List.nodup_range n)]
    simp [hlen]
  have heq : l.toFinset = (List.range n).toFinset :=
    Finset.eq_of_subset_of_card_le hsub hcard
  exact List.perm_of_nodup_nodup_toFinset_eq hnd (List.nodup_range n) heq

/-- **C4.** For every `n × n` matrix `L` whose rows and columns are
permutations of `[0,n)`, each row `T[j]` of the derived transversal table
(computed as `T[j][r] = L_inv[r][j]`) is itself a permutation of `[0,n)`. -/
theorem transversals_perm (n : Nat) (L : Nat → Nat → Nat) (hL : IsLatin n L) :
    ∀ j < n, (compute_b_transversals n L j).Perm (List.range n) := by
  obtain ⟨hrow, hcol⟩ := hL
  intro j hj
  have hn : 0 < n := Nat.pos_of_ne_zero (by rintro rfl; omega)
  apply perm_range_of_nodup_of_lt
  · -- values are pairwise distinct: two rounds with the same transversal
    -- index would put `j` twice into one column
    apply List.Nodup.map_on _ (List.nodup_range n)
    intro r₁ hr₁ r₂ hr₂ heq
    rw [List.mem_range] at hr₁ hr₂
    have h₁ : L r₁ (bTrans n L j r₁) = j := bTrans_spec hrow hj hr₁
    have h₂ : L r₂ (bTrans n L j r₂) = j := bTrans_spec hrow hj hr₂
    have hlt : bTrans n L j r₁ < n := rowInv_lt (L r₁) j n hn
    rw [heq] at h₁
    exact injOn_of_perm (hcol _ (List.mem_range.mpr (heq ▸ hlt))) r₁ hr₁ r₂ hr₂
      (h₁.trans h₂.symm)
  · simp [compute_b_transversals]
  · intro x hx
    rcases List.mem_map.mp hx with ⟨r, _, rfl⟩
    exact rowInv_lt (L r) j n hn

/-- **C4 witness**: the concrete 4×4 cyclic Latin square. -/
theorem transversals_perm_witness :
    (compute_b_transversals 4 L4 1).Perm (List.range 4) :=
  transversals_perm 4 L4 (by decide) 1 (by decide)

end Transversal

/-! ## Apply/undo lemmas for the backtracking counters -/

section ApplyUndo

lemma applyChosen_apply (chosen : List Nat) :
    ∀ (cc : Nat → Nat) (i : Nat), applyChosen cc chosen i = cc i + chosen.count i := by
  induction chosen with
  | nil => intro cc i; simp [applyChosen]
  | cons a t ih =>
    intro cc i
    show applyChosen (Function.update cc a (cc a + 1)) t i = _
    rw [ih]
    by_cases h : i = a
    · subst h; simp [Function.update_apply, List.count_cons]; omega
    · simp [Function.update_apply, h, List.count_cons, Ne.symm h]

lemma undoChosen_apply (chosen : List Nat) :
    ∀ (cc : Nat → Nat) (i : Nat), undoChosen cc chosen i = cc i - chosen.count i := by
  induction chosen with
  | nil => intro cc i; simp [undoChosen]
  | cons a t ih =>
    intro cc i
    show undoChosen (Function.update cc a (cc a - 1)) t i = _
    rw [ih]
    by_cases h : i = a
    · subst h; simp [Function.update_apply, List.count_cons]; omega
    · simp [Function.update_apply, h, List.count_cons, Ne.symm h]

lemma foldl_condBump_apply (P : Nat → Prop) [DecidablePred P] (g : Nat → Nat)
    (l : List Nat) (hnd : l.Nodup) :
    ∀ (bc : Nat → Nat) (j : Nat),
      (l.foldl (fun f j => if P j then Function.update f j (g (f j)) else f) bc) j =
        if j ∈ l ∧ P j then g (bc j) else bc j := by
  induction l with
  | nil => intro bc j; simp
  | cons a t ih =>
    intro bc j
    have hat : a ∉ t := (List.nodup_cons.mp hnd).1
    have hndt : t.Nodup := (List.nodup_cons.mp hnd).2
    simp only [List.foldl_cons]
    rw [ih hndt]
    by_cases hja : j = a
    · subst hja
      by_cases hP : P j
      · simp [hP, hat, Function.update_apply]
      · simp [hP, hat]
    · by_cases hjt : j ∈ t
      · by_cases hP : P j <;> by_cases hPa : P a <;>
          simp [hP, hPa, hjt, hja, Function.update_apply]
      · by_cases hP : P j <;> by_cases hPa : P a <;>
          simp [hP, hPa, hjt, hja, Function.update_apply]

lemma applyB_apply (n : Nat) (bt : Nat → Nat → Nat) (r : Nat) (chosen : List Nat)
    (bc : Nat → Nat) (j : Nat) :
    applyB n bt r chosen bc j =
      if j < n ∧ bt j r ∈ chosen then bc j + 1 else bc j := by
  unfold applyB
  rw [foldl_condBump_apply (fun j => bt j r ∈ chosen) (fun x => x + 1) _
    (List.nodup_range n)]
  simp [List.mem_range]

lemma undoB_apply (n : Nat) (bt : Nat → Nat → Nat) (r : Nat) (chosen : List Nat)
    (bc : Nat → Nat) (j : Nat) :
    undoB n bt r chosen bc j =
      if j < n ∧ bt j r ∈ chosen then bc j - 1 else bc j := by
  unfold undoB
  rw [foldl_condBump_apply (fun j => bt j r ∈ chosen) (fun x => x - 1) _
    (List.nodup_range n)]
  simp [List.mem_range]

/-- **C9.** Apply/undo round-trip: for every search state `(col_count,
b_count)` and every chosen row completion, applying the completion to both
counter families and then undoing it restores the counters exactly, so
after a failed recursive call the counters equal their values before the
completion was tried. -/
theorem apply_undo_roundtrip (n r : Nat) (bt : Nat → Nat → Nat)
    (cc bc : Nat → Nat) (chosen : List Nat) :
    undoChosen (applyChosen cc chosen) chosen = cc ∧
      undoB n bt r chosen (applyB n bt r chosen bc) = bc := by
  constructor
  · funext i
    rw [undoChosen_apply, applyChosen_apply]
    omega
  · funext j
    rw [undoB_apply, applyB_apply]
    by_cases h : j < n ∧ bt j r ∈ chosen <;> simp [h]

end ApplyUndo

/-! ## Combinations and list/Finset bridges -/

section Bridges

lemma mem_combinations :
    ∀ (k : Nat) (xs l : List Nat), l ∈ combinations k xs ↔ l.Sublist xs ∧ l.length = k
  | 0, xs, l => by
    constructor
    · intro h
      simp only [combinations, List.mem_singleton] at h
      subst h
      exact ⟨List.nil_sublist xs, rfl⟩
    · intro ⟨_, hlen⟩
      rw [List.length_eq_zero] at hlen
      subst hlen
      simp [combinations]
  | k + 1, [], l => by
    constructor
    · intro h; simp [combinations] at h
    · intro ⟨hsub, hlen⟩
      rw [List.sublist_nil.mp hsub] at hlen
      simp at hlen
  | k + 1, x :: xs, l => by
    constructor
    · intro h
      simp only [combinations, List.mem_append, List.mem_map] at h
      rcases h with ⟨t, ht, rfl⟩ | h
      · have := (mem_combinations k xs t).mp ht
        exact ⟨this.1.cons₂ x, by simp [this.2]⟩
      · have := (mem_combinations (k + 1) xs l).mp h
        exact ⟨this.1.cons x, this.2⟩
    · intro ⟨hsub, hlen⟩
      simp only [combinations, List.mem_append, List.mem_map]
      cases hsub with
      | cons _ h => exact Or.inr ((mem_combinations (k + 1) xs l).mpr ⟨h, hlen⟩)
      | cons₂ _ h =>
        refine Or.inl ⟨_, (mem_combinations k xs _).mpr ⟨h, ?_⟩, rfl⟩
        simpa using hlen

/-- A duplicate-free list counts each member once. -/
lemma count_of_nodup {l : List Nat} (h : l.Nodup) (i : Nat) :
    l.count i = if i ∈ l then 1 else 0 := by
  by_cases hm : i ∈ l
  · simp [hm, List.count_eq_one_of_mem h hm]
  · simp [hm, List.count_eq_zero_of_not_mem hm]

/-- The ascending listing of a subset of `[0,n)`. -/
lemma filter_range_mem_eq (n : Nat) (s : Finset Nat) (hs : s ⊆ Finset.range n) :
    ((List.range n).filter (fun i => i ∈ s)).toFinset = s ∧
      ((List.range n).filter (fun i => i ∈ s)).length = s.card := by
  have hnd : ((List.range n).filter (fun i => i ∈ s)).Nodup :=
    (List.nodup_range n).filter _
  have htf : ((List.range n).filter (fun i => i ∈ s)).toFinset = s := by
    ext x
    simp only [List.mem_toFinset, List.mem_filter, List.mem_range, decide_eq_true_eq]
    exact ⟨fun h => h.2, fun h => ⟨Finset.mem_range.mp (hs h), h⟩⟩
  refine ⟨htf, ?_⟩
  have := List.toFinset_card_of_nodup hnd
  rw [htf] at this
  omega

lemma cAdd_eq_sum (i : Nat) :
    ∀ rows : List (List Nat),
      cAdd i rows = ∑ k ∈ Finset.range rows.length, (rows.getD k []).count i
  | [] => by simp [cAdd]
  | row :: rest => by
    rw [cAdd, cAdd_eq_sum i rest]
    simp only [List.length_cons]
    rw [Finset.sum_range_succ']
    simp only [List.getD_cons_succ, List.getD_cons_zero]
    omega

lemma bAdd_eq_sum (bt : Nat → Nat → Nat) (j : Nat) :
    ∀ (r0 : Nat) (rows : List (List Nat)),
      bAdd bt j r0 rows =
        ∑ k ∈ Finset.range rows.length,
          if bt j (r0 + k) ∈ rows.getD k [] then 1 else 0
  | r0, [] => by simp [bAdd]
  | r0, row :: rest => by
    rw [bAdd, bAdd_eq_sum bt j (r0 + 1) rest]
    simp only [List.length_cons]
    rw [Finset.sum_range_succ']
    have h1 : ∀ k ∈ Finset.range rest.length,
        (if bt j (r0 + (k + 1)) ∈ (row :: rest).getD (k + 1) ([] : List Nat)
            then (1 : Nat) else 0) =
          if bt j (r0 + 1 + k) ∈ rest.getD k [] then 1 else 0 := by
      intro k _
      have heq : r0 + (k + 1) = r0 + 1 + k := by omega
      rw [heq, List.getD_cons_succ]
    rw [Finset.sum_congr rfl h1]
    simp only [List.getD_cons_zero, Nat.add_zero]
    omega

end Bridges

/-! ## Soundness of the backtracking engine -/

section BTSound

lemma btBase_some {n m : Nat} {cc bc : Nat → Nat} {rows : List (List Nat)}
    (h : btBase n m cc bc = some rows) :
    rows = [] ∧ (∀ i < n, cc i = m) ∧ (∀ j < n, bc j = m) := by
  unfold btBase at h
  split_ifs at h with hc
  cases h
  exact ⟨rfl, fun i hi => hc.1 i (List.mem_range.mpr hi),
    fun j hj => hc.2 j (List.mem_range.mpr hj)⟩

lemma btBase_none {n m : Nat} {cc bc : Nat → Nat}
    (h : btBase n m cc bc = none) :
    ¬((∀ i < n, cc i = m) ∧ (∀ j < n, bc j = m)) := by
  intro ⟨h1, h2⟩
  unfold btBase at h
  rw [if_pos ⟨fun i hi => h1 i (List.mem_range.mp hi),
    fun j hj => h2 j (List.mem_range.mp hj)⟩] at h
  cases h

lemma classifyRow_some_elim {n m remain r : Nat} {bt : Nat → Nat → Nat}
    {cc bc : Nat → Nat} {forced forbidden : Finset Nat}
    (h : classifyRow n m remain r bt cc bc = some (forced, forbidden)) :
    forced = colForced n m remain cc ∪ bForced n m remain r bt bc ∧
      forbidden = colForbidden n m cc ∪ bForbidden n m r bt bc ∧
      ¬ colPrune n m remain cc := by
  unfold classifyRow at h
  split_ifs at h with hp
  cases h
  exact ⟨rfl, rfl, hp⟩

lemma forced_subset_range {n m remain r : Nat} {bt : Nat → Nat → Nat}
    {cc bc : Nat → Nat} (hbt : ∀ j r, j < n → bt j r < n) :
    colForced n m remain cc ∪ bForced n m remain r bt bc ⊆ Finset.range n := by
  intro x hx
  rcases Finset.mem_union.mp hx with hx | hx
  · exact (Finset.mem_filter.mp hx).1
  · rcases Finset.mem_image.mp hx with ⟨j, hj, rfl⟩
    exact Finset.mem_range.mpr
      (hbt j r (Finset.mem_range.mp (Finset.mem_filter.mp hj).1))

lemma forbidden_subset_range {n m r : Nat} {bt : Nat → Nat → Nat}
    {cc bc : Nat → Nat} (hbt : ∀ j r, j < n → bt j r < n) :
    colForbidden n m cc ∪ bForbidden n m r bt bc ⊆ Finset.range n := by
  intro x hx
  rcases Finset.mem_union.mp hx with hx | hx
  · exact (Finset.mem_filter.mp hx).1
  · rcases Finset.mem_image.mp hx with ⟨j, hj, rfl⟩
    exact Finset.mem_range.mpr
      (hbt j r (Finset.mem_range.mp (Finset.mem_filter.mp hj).1))

lemma chosen_facts {n m : Nat} {forced forbidden : Finset Nat} {extra : List Nat}
    (hfsub : forced ⊆ Finset.range n)
    (hextra : extra ∈ combinations (m - forced.card) (freeOf n forced forbidden))
    (hcard : forced.card ≤ m) :
    (chosenOf n forced extra).Nodup ∧
      (chosenOf n forced extra).length = m ∧
      (∀ i ∈ chosenOf n forced extra, i < n) ∧
      (∀ i, i ∈ chosenOf n forced extra ↔ i ∈ forced ∨ i ∈ extra) := by
  obtain ⟨hsub, hlen⟩ := (mem_combinations _ _ _).mp hextra
  have hfree : ∀ i ∈ extra, i < n ∧ i ∉ forced ∧ i ∉ forbidden := by
    intro i hi
    have := hsub.mem hi
    simp only [freeOf, List.mem_filter, List.mem_range, decide_eq_true_eq] at this
    tauto
  obtain ⟨hftf, hflen⟩ := filter_range_mem_eq n forced hfsub
  have hflmem : ∀ i, i ∈ (List.range n).filter (fun i => i ∈ forced) ↔ i ∈ forced := by
    intro i
    rw [← List.mem_toFinset, hftf]
  have hperm : (chosenOf n forced extra).Perm
      ((List.range n).filter (fun i => i ∈ forced) ++ extra) :=
    List.perm_insertionSort _ _
  have hnd : ((List.range n).filter (fun i => i ∈ forced) ++ extra).Nodup := by
    rw [List.nodup_append]
    refine ⟨(List.nodup_range n).filter _, hsub.nodup ((List.nodup_range n).filter _), ?_⟩
    intro i hi hie
    exact (hfree i hie).2.1 ((hflmem i).mp hi)
  refine ⟨hperm.nodup_iff.mpr hnd, ?_, ?_, ?_⟩
  · rw [hperm.length_eq, List.length_append, hflen, hlen]
    omega
  · intro i hi
    rcases List.mem_append.mp (hperm.mem_iff.mp hi) with hi | hi
    · exact Finset.mem_range.mp (hfsub ((hflmem i).mp hi))
    · exact (hfree i hi).1
  · intro i
    rw [hperm.mem_iff, List.mem_append, hflmem]

lemma btRow_some_elim {n m remain r : Nat} {bt : Nat → Nat → Nat}
    {cc bc : Nat → Nat}
    {next : (Nat → Nat) → (Nat → Nat) → Option (List (List Nat))}
    {rows : List (List Nat)}
    (h : btRow n m remain r bt cc bc next = some rows) :
    ∃ (forced forbidden : Finset Nat) (extra : List Nat) (rows' : List (List Nat)),
      classifyRow n m remain r bt cc bc = some (forced, forbidden) ∧
      forced.card ≤ m ∧
      extra ∈ combinations (m - forced.card) (freeOf n forced forbidden) ∧
      feasCheck n m remain (applyChosen cc (chosenOf n forced extra))
        (applyB n bt r (chosenOf n forced extra) bc) ∧
      next (applyChosen cc (chosenOf n forced extra))
        (applyB n bt r (chosenOf n forced extra) bc) = some rows' ∧
      rows = chosenOf n forced extra :: rows' := by
  unfold btRow at h
  split at h
  next => cases h
  next forced forbidden heq =>
    split_ifs at h with h1 h2 h3 h4
    rcases List.exists_of_findSome?_eq_some h with ⟨extra, hmem, hex⟩
    split_ifs at hex with hfeas
    rcases Option.map_eq_some'.mp hex with ⟨rows', hnext, rfl⟩
    exact ⟨forced, forbidden, extra, rows', heq, by omega, hmem, hfeas, hnext, rfl⟩

lemma backtrack_sound (n m : Nat) (bt : Nat → Nat → Nat)
    (hbt : ∀ j r, j < n → bt j r < n) :
    ∀ (fuel r : Nat) (cc bc : Nat → Nat) (rows : List (List Nat)),
      backtrack n m bt fuel r cc bc = some rows →
      rows.length = n - r ∧
      (∀ row ∈ rows, row.Nodup ∧ row.length = m ∧ ∀ i ∈ row, i < n) ∧
      (∀ i < n, cc i + cAdd i rows = m) ∧
      (∀ j < n, bc j + bAdd bt j r rows = m) := by
  intro fuel
  induction fuel with
  | zero =>
    intro r cc bc rows h
    rw [backtrack] at h
    split_ifs at h with hr
    obtain ⟨rfl, h1, h2⟩ := btBase_some h
    refine ⟨by simpa using (Nat.sub_eq_zero_of_le hr).symm, by simp, ?_, ?_⟩
    · intro i hi; rw [cAdd]; have := h1 i hi; omega
    · intro j hj; rw [bAdd]; have := h2 j hj; omega
  | succ fuel ih =>
    intro r cc bc rows h
    rw [backtrack] at h
    split_ifs at h with hr
    · obtain ⟨rfl, h1, h2⟩ := btBase_some h
      refine ⟨by simpa using (Nat.sub_eq_zero_of_le hr).symm, by simp, ?_, ?_⟩
      · intro i hi; rw [cAdd]; have := h1 i hi; omega
      · intro j hj; rw [bAdd]; have := h2 j hj; omega
    · obtain ⟨forced, forbidden, extra, rows', hcl, hcard, hmem, _, hnext, rfl⟩ :=
        btRow_some_elim h
      obtain ⟨hfeq, hbeq, _⟩ := classifyRow_some_elim hcl
      have hfsub : forced ⊆ Finset.range n := hfeq ▸ forced_subset_range hbt
      obtain ⟨hnd, hlen, hlt, _⟩ := chosen_facts hfsub hmem hcard
      obtain ⟨ih1, ih2, ih3, ih4⟩ := ih (r + 1) _ _ rows' hnext
      refine ⟨?_, ?_, ?_, ?_⟩
      · simp only [List.length_cons, ih1]; omega
      · intro row hrow
        rcases List.mem_cons.mp hrow with rfl | hrow
        · exact ⟨hnd, hlen, hlt⟩
        · exact ih2 row hrow
      · intro i hi
        have := ih3 i hi
        rw [applyChosen_apply] at this
        rw [cAdd]
        omega
      · intro j hj
        have := ih4 j hj
        rw [applyB_apply] at this
        rw [bAdd]
        by_cases hcm : bt j r ∈ chosenOf n forced extra
        · simp only [hj, hcm, and_self, if_true] at this ⊢
          omega
        · simp only [hj, hcm, and_false, if_false] at this ⊢
          omega

/-- The `Finset.range` filter by membership in a short duplicate-free list
has the list's length as cardinality. -/
lemma card_filter_range_mem {n : Nat} {row : List Nat} (hnd : row.Nodup)
    (hlt : ∀ i ∈ row, i < n) :
    ((Finset.range n).filter (fun i => i ∈ row)).card = row.length := by
  have : (Finset.range n).filter (fun i => i ∈ row) = row.toFinset := by
    ext x
    simp only [Finset.mem_filter, Finset.mem_range, List.mem_toFinset]
    exact ⟨fun h => h.2, fun h => ⟨hlt x h, h⟩⟩
  rw [this, List.toFinset_card_of_nodup hnd]

/-- **C1.** Soundness of the backtracking engine's output: whenever
`solve_backtrack` returns a coloring (rather than `None`), the matrix `F`
built from it is binary and satisfies all three balance families — every
row sum, every column sum `col_sum[i]`, and every opponent-transversal sum
`opp_sum[j] = sum_r F[r][T[j][r]]` equals `m`. -/
theorem solve_backtrack_sound (n m : Nat) (L : Nat → Nat → Nat)
    (hL : IsLatin n L) (rows : List (List Nat))
    (h : solve_backtrack n m L = some rows) :
    (∀ r i, Fmat rows r i = 0 ∨ Fmat rows r i = 1) ∧
      (∀ r < n, ∑ i ∈ Finset.range n, Fmat rows r i = m) ∧
      (∀ i < n, ∑ r ∈ Finset.range n, Fmat rows r i = m) ∧
      (∀ j < n, ∑ r ∈ Finset.range n, Fmat rows r (bTrans n L j r) = m) := by
  have hbt : ∀ j r, j < n → bTrans n L j r < n := fun j r hj =>
    rowInv_lt (L r) j n (by omega)
  obtain ⟨hlen, hrows, hcol, hbal⟩ :=
    backtrack_sound n m (bTrans n L) hbt n 0 _ _ rows h
  rw [Nat.sub_zero] at hlen
  have hmemD : ∀ r < n, rows.getD r [] ∈ rows := by
    intro r hr
    rw [List.getD_eq_getElem rows [] (by omega)]
    exact List.getElem_mem _
  refine ⟨?_, ?_, ?_, ?_⟩
  · intro r i
    unfold Fmat
    split <;> simp
  · intro r hr
    obtain ⟨hnd, hrlen, hrlt⟩ := hrows _ (hmemD r hr)
    calc ∑ i ∈ Finset.range n, Fmat rows r i
        = ((Finset.range n).filter (fun i => i ∈ rows.getD r [])).card := by
          rw [Finset.card_filter]
          exact Finset.sum_congr rfl (fun i _ => rfl)
      _ = m := by rw [card_filter_range_mem hnd hrlt, hrlen]
  · intro i hi
    have hc := hcol i hi
    rw [cAdd_eq_sum, hlen] at hc
    rw [← hc]
    simp only [Nat.zero_add]
    refine Finset.sum_congr rfl (fun r hr => ?_)
    obtain ⟨hnd, _, _⟩ := hrows _ (hmemD r (Finset.mem_range.mp hr))
    rw [count_of_nodup hnd]
    rfl
  · intro j hj
    have hb := hbal j hj
    rw [bAdd_eq_sum, hlen] at hb
    rw [← hb]
    simp only [Nat.zero_add]
    exact Finset.sum_congr rfl (fun r hr => rfl)

/-- **C1 witness**: the engine's output on the 4×4 cyclic Latin square is
fully balanced. -/
theorem solve_backtrack_sound_witness :
    (∀ r < 4, ∑ i ∈ Finset.range 4, Fmat [[0, 1], [1, 2], [2, 3], [0, 3]] r i = 2) ∧
      (∀ i < 4, ∑ r ∈ Finset.range 4, Fmat [[0, 1], [1, 2], [2, 3], [0, 3]] r i = 2) ∧
      (∀ j < 4,
        ∑ r ∈ Finset.range 4, Fmat [[0, 1], [1, 2], [2, 3], [0, 3]] r (bTrans 4 L4 j r) = 2) := by
  obtain ⟨_, h2, h3, h4⟩ :=
    solve_backtrack_sound 4 2 L4 (by decide) [[0, 1], [1, 2], [2, 3], [0, 3]] (by decide)
  exact ⟨h2, h3, h4⟩

end BTSound

/-! ## Completeness of the backtracking engine -/

section BTComplete

lemma cAdd_le (i : Nat) :
    ∀ rows : List (List Nat), (∀ row ∈ rows, row.Nodup) → cAdd i rows ≤ rows.length
  | [], _ => by simp [cAdd]
  | row :: rest, h => by
    rw [cAdd, List.length_cons]
    have h1 : row.count i ≤ 1 := by
      rw [count_of_nodup (h row (List.mem_cons_self row rest))]
      split <;> omega
    have h2 := cAdd_le i rest (fun r hr => h r (List.mem_cons_of_mem row hr))
    omega

lemma bAdd_le (bt : Nat → Nat → Nat) (j : Nat) :
    ∀ (r : Nat) (rows : List (List Nat)), bAdd bt j r rows ≤ rows.length
  | _, [] => by simp [bAdd]
  | r, row :: rest => by
    rw [bAdd, List.length_cons]
    have h2 := bAdd_le bt j (r + 1) rest
    split <;> omega

lemma classifyRow_none_elim {n m remain r : Nat} {bt : Nat → Nat → Nat}
    {cc bc : Nat → Nat}
    (h : classifyRow n m remain r bt cc bc = none) :
    colPrune n m remain cc := by
  unfold classifyRow at h
  split_ifs at h with hp
  exact hp

lemma backtrack_complete (n m : Nat) (bt : Nat → Nat → Nat)
    (hbt : ∀ j r, j < n → bt j r < n) :
    ∀ (fuel r : Nat) (cc bc : Nat → Nat) (rows : List (List Nat)),
      n - r ≤ fuel →
      backtrack n m bt fuel r cc bc = none →
      rows.length = n - r →
      (∀ row ∈ rows, row.Nodup ∧ row.length = m ∧ ∀ i ∈ row, i < n) →
      ¬((∀ i < n, cc i + cAdd i rows = m) ∧
        (∀ j < n, bc j + bAdd bt j r rows = m)) := by
  intro fuel
  induction fuel with
  | zero =>
    intro r cc bc rows hfu h hlen _ ⟨hC, hB⟩
    have hr : n ≤ r := by omega
    rw [backtrack, if_pos hr] at h
    refine btBase_none h ⟨fun i hi => ?_, fun j hj => ?_⟩
    · have := hC i hi
      have h0 : rows = [] := List.length_eq_zero.mp (by omega)
      rw [h0, cAdd] at this
      omega
    · have := hB j hj
      have h0 : rows = [] := List.length_eq_zero.mp (by omega)
      rw [h0, bAdd] at this
      omega
  | succ fuel ih =>
    intro r cc bc rows hfu h hlen hprops ⟨hC, hB⟩
    by_cases hr : n ≤ r
    · rw [backtrack, if_pos hr] at h
      refine btBase_none h ⟨fun i hi => ?_, fun j hj => ?_⟩
      · have := hC i hi
        have h0 : rows = [] := List.length_eq_zero.mp (by omega)
        rw [h0, cAdd] at this
        omega
      · have := hB j hj
        have h0 : rows = [] := List.length_eq_zero.mp (by omega)
        rw [h0, bAdd] at this
        omega
    · have hrn : r < n := by omega
      rw [backtrack, if_neg hr] at h
      -- the candidate completion for this row, taken from `rows`
      obtain ⟨row, rest, rfl⟩ : ∃ row rest, rows = row :: rest := by
        cases rows with
        | nil => simp at hlen; omega
        | cons row rest => exact ⟨row, rest, rfl⟩
      obtain ⟨hnd, hlm, hltr⟩ := hprops row (List.mem_cons_self row rest)
      have hrestp : ∀ q ∈ rest, q.Nodup ∧ q.length = m ∧ ∀ i ∈ q, i < n :=
        fun q hq => hprops q (List.mem_cons_of_mem row hq)
      have hrestlen : rest.length = n - r - 1 := by
        simp only [List.length_cons] at hlen
        omega
      have hcount : ∀ i, row.count i = if i ∈ row then 1 else 0 := count_of_nodup hnd
      have hCr : ∀ i < n, cc i + row.count i + cAdd i rest = m := by
        intro i hi
        have := hC i hi
        rw [cAdd] at this
        omega
      have hBr : ∀ j < n,
          bc j + (if bt j r ∈ row then 1 else 0) + bAdd bt j (r + 1) rest = m := by
        intro j hj
        have := hB j hj
        rw [bAdd] at this
        omega
      have hcle : ∀ i, cAdd i rest ≤ n - r - 1 := by
        intro i
        have := cAdd_le i rest (fun q hq => (hrestp q hq).1)
        omega
      have hble : ∀ j, bAdd bt j (r + 1) rest ≤ n - r - 1 := by
        intro j
        have := bAdd_le bt j (r + 1) rest
        omega
      unfold btRow at h
      split at h
      next hcl =>
        -- mid-loop прune fired; but the completion shows it cannot
        obtain ⟨i, hiR, hilt, hple⟩ := classifyRow_none_elim hcl
        rw [Finset.mem_range] at hiR
        have := hCr i hiR
        have h1 : row.count i ≤ 1 := by rw [hcount]; split <;> omega
        have := hcle i
        omega
      next forced forbidden heq =>
        obtain ⟨hfeq, hbeq, _⟩ := classifyRow_some_elim heq
        -- every forced column belongs to the completion
        have hforced_row : ∀ x ∈ forced, x ∈ row := by
          intro x hx
          rw [hfeq] at hx
          rcases Finset.mem_union.mp hx with hx | hx
          · obtain ⟨hxr, hxlt, _, hxs⟩ := by
              simpa only [colForced, Finset.mem_filter, Finset.mem_range] using hx
            by_contra hxrow
            have := hCr x hxr
            rw [hcount, if_neg hxrow] at this
            have := hcle x
            omega
          · obtain ⟨j, hj, rfl⟩ := Finset.mem_image.mp hx
            obtain ⟨hjr, hjlt, hjs⟩ := by
              simpa only [bForced, Finset.mem_filter, Finset.mem_range] using hj
            by_contra hxrow
            have := hBr j hjr
            rw [if_neg hxrow] at this
            have := hble j
            omega
        -- no forbidden column belongs to the completion
        have hforbidden_row : ∀ x ∈ forbidden, x ∉ row := by
          intro x hx
          rw [hbeq] at hx
          rcases Finset.mem_union.mp hx with hx | hx
          · obtain ⟨hxr, hxge⟩ := by
              simpa only [colForbidden, Finset.mem_filter, Finset.mem_range] using hx
            intro hxrow
            have := hCr x hxr
            rw [hcount, if_pos hxrow] at this
            omega
          · obtain ⟨j, hj, rfl⟩ := Finset.mem_image.mp hx
            obtain ⟨hjr, hjge⟩ := by
              simpa only [bForbidden, Finset.mem_filter, Finset.mem_range] using hj
            intro hxrow
            have := hBr j hjr
            rw [if_pos hxrow] at this
            omega
        have hfsub : forced ⊆ Finset.range n := by
          rw [hfeq]; exact forced_subset_range hbt
        have hbsub : forbidden ⊆ Finset.range n := by
          rw [hbeq]; exact forbidden_subset_range hbt
        have hrowcard : row.toFinset.card = m := by
          rw [List.toFinset_card_of_nodup hnd, hlm]
        have hfsubrow : forced ⊆ row.toFinset := by
          intro x hx
          exact List.mem_toFinset.mpr (hforced_row x hx)
        have hfcard : forced.card ≤ m := by
          have := Finset.card_le_card hfsubrow
          omega
        -- the completion's extra columns over the forced set
        have hextraL : ((List.range n).filter (fun i => i ∈ row ∧ i ∉ forced)) ∈
            combinations (m - forced.card) (freeOf n forced forbidden) := by
          rw [mem_combinations]
          constructor
          · unfold freeOf
            refine List.monotone_filter_right _ (fun x hx => ?_)
            simp only [decide_eq_true_eq] at hx ⊢
            exact ⟨hx.2, fun hc => hforbidden_row x hc hx.1⟩
          · have hnodupE : ((List.range n).filter
                (fun i => i ∈ row ∧ i ∉ forced)).Nodup :=
              (List.nodup_range n).filter _
            have htfE : ((List.range n).filter
                (fun i => i ∈ row ∧ i ∉ forced)).toFinset =
                row.toFinset \ forced := by
              ext x
              simp only [List.mem_toFinset, List.mem_filter, List.mem_range,
                Finset.mem_sdiff, decide_eq_true_eq]
              constructor
              · rintro ⟨_, hx1, hx2⟩
                exact ⟨hx1, hx2⟩
              · rintro ⟨hx1, hx2⟩
                exact ⟨hltr x hx1, hx1, hx2⟩
            have := List.toFinset_card_of_nodup hnodupE
            rw [htfE, Finset.card_sdiff hfsubrow, hrowcard] at this
            omega
        -- none of the four set-level guards can fire
        have hg1 : forced ∩ forbidden = ∅ := by
          rw [Finset.eq_empty_iff_forall_not_mem]
          intro x hx
          obtain ⟨hx1, hx2⟩ := Finset.mem_inter.mp hx
          exact hforbidden_row x hx2 (hforced_row x hx1)
        have hg2 : ¬(m < forced.card) := by omega
        have hg3 : ¬((n : Int) - forbidden.card < m) := by
          have hsd : row.toFinset ⊆ Finset.range n \ forbidden := by
            intro x hx
            rw [List.mem_toFinset] at hx
            rw [Finset.mem_sdiff]
            exact ⟨Finset.mem_range.mpr (hltr x hx), fun hc => hforbidden_row x hc hx⟩
          have hc1 : m ≤ n - forbidden.card := by
            have := Finset.card_le_card hsd
            rw [Finset.card_sdiff hbsub, Finset.card_range] at this
            omega
          have hc2 : forbidden.card ≤ n := by
            have := Finset.card_le_card hbsub
            rw [Finset.card_range] at this
            omega
          omega
        have hg4 : ¬((freeOf n forced forbidden).length < m - forced.card) := by
          have := ((mem_combinations _ _ _).mp hextraL).1.length_le
          have := ((mem_combinations _ _ _).mp hextraL).2
          omega
        rw [if_neg (not_not_intro hg1), if_neg hg2, if_neg hg3, if_neg hg4] at h
        -- the enumeration reached the completion's extra set and failed
        · have hfE := List.findSome?_eq_none_iff.mp h _ hextraL
          obtain ⟨hndC, hlenC, hltC, hmemC⟩ := chosen_facts hfsub hextraL hfcard
          have hmemrow : ∀ i,
              i ∈ chosenOf n forced ((List.range n).filter
                (fun i => i ∈ row ∧ i ∉ forced)) ↔ i ∈ row := by
            intro i
            rw [hmemC i]
            constructor
            · rintro (hi | hi)
              · exact hforced_row i hi
              · simp only [List.mem_filter, decide_eq_true_eq] at hi
                exact hi.2.1
            · intro hi
              by_cases hif : i ∈ forced
              · exact Or.inl hif
              · refine Or.inr ?_
                simp only [List.mem_filter, List.mem_range, decide_eq_true_eq]
                exact ⟨hltr i hi, hi, hif⟩
          have hcntC : ∀ i,
              (chosenOf n forced ((List.range n).filter
                (fun i => i ∈ row ∧ i ∉ forced))).count i = row.count i := by
            intro i
            rw [count_of_nodup hndC, hcount]
            by_cases hi : i ∈ row
            · rw [if_pos ((hmemrow i).mpr hi), if_pos hi]
            · rw [if_neg (fun hc => hi ((hmemrow i).mp hc)), if_neg hi]
          have hcc' : ∀ i, applyChosen cc
              (chosenOf n forced ((List.range n).filter
                (fun i => i ∈ row ∧ i ∉ forced))) i = cc i + row.count i := by
            intro i
            rw [applyChosen_apply, hcntC]
          have hbc' : ∀ j, j < n → applyB n bt r
              (chosenOf n forced ((List.range n).filter
                (fun i => i ∈ row ∧ i ∉ forced))) bc j =
              bc j + (if bt j r ∈ row then 1 else 0) := by
            intro j hj
            rw [applyB_apply]
            by_cases hc : bt j r ∈ row
            · rw [if_pos ⟨hj, (hmemrow _).mpr hc⟩, if_pos hc]
            · rw [if_neg (fun hh => hc ((hmemrow _).mp hh.2)), if_neg hc]
              omega
          have hfeas : feasCheck n m (n - r - 1)
              (applyChosen cc (chosenOf n forced ((List.range n).filter
                (fun i => i ∈ row ∧ i ∉ forced))))
              (applyB n bt r (chosenOf n forced ((List.range n).filter
                (fun i => i ∈ row ∧ i ∉ forced))) bc) := by
            constructor
            · intro i hi
              rw [Finset.mem_range] at hi
              rw [hcc' i]
              have := hCr i hi
              have := hcle i
              omega
            · intro j hj
              rw [Finset.mem_range] at hj
              rw [hbc' j hj]
              have := hBr j hj
              have := hble j
              omega
          rw [if_pos hfeas, Option.map_eq_none'] at hfE
          refine ih (r + 1)
            (applyChosen cc (chosenOf n forced ((List.range n).filter
              (fun i => i ∈ row ∧ i ∉ forced))))
            (applyB n bt r (chosenOf n forced ((List.range n).filter
              (fun i => i ∈ row ∧ i ∉ forced))) bc)
            rest (by omega) hfE (by omega) hrestp ⟨?_, ?_⟩
          · intro i hi
            rw [hcc' i]
            have := hCr i hi
            omega
          · intro j hj
            rw [hbc' j hj]
            have := hBr j hj
            omega

/-- **C2.** Completeness of the backtracking engine: for a valid Latin
square `L`, `solve_backtrack` returns `None` only if no binary `n × n`
matrix with all row sums, column sums and opponent-transversal sums equal
to `m` exists — the forbidden/prune/forced classification and the
post-apply feasibility check never cut off a branch containing a solution,
so the Solved/Unsat verdict agrees with brute-force enumeration over all
row-sum-`m` matrices. -/
theorem solve_backtrack_complete (n m : Nat) (L : Nat → Nat → Nat)
    (hL : IsLatin n L) (h : solve_backtrack n m L = none) :
    ¬ ∃ F : Nat → Nat → Nat,
      (∀ r < n, ∀ i < n, F r i = 0 ∨ F r i = 1) ∧
      (∀ r < n, ∑ i ∈ Finset.range n, F r i = m) ∧
      (∀ i < n, ∑ r ∈ Finset.range n, F r i = m) ∧
      (∀ j < n, ∑ r ∈ Finset.range n, F r (bTrans n L j r) = m) := by
  rintro ⟨F, hbin, hrow, hcols, hbts⟩
  have hbt : ∀ j r, j < n → bTrans n L j r < n := fun j r hj =>
    rowInv_lt (L r) j n (by omega)
  have hgetD : ∀ k, k < n →
      ((List.range n).map (fun r => (List.range n).filter (fun i => F r i = 1))).getD
        k [] = (List.range n).filter (fun i => F k i = 1) := by
    intro k hk
    rw [List.getD_eq_getElem _ _ (by simpa using hk), List.getElem_map,
      List.getElem_range]
  have hfillen : ∀ k, k < n →
      ((List.range n).filter (fun i => F k i = 1)).length = m := by
    intro k hk
    have hnd : ((List.range n).filter (fun i => F k i = 1)).Nodup :=
      (List.nodup_range n).filter _
    have htf : ((List.range n).filter (fun i => F k i = 1)).toFinset =
        (Finset.range n).filter (fun i => F k i = 1) := by
      ext x
      simp [List.mem_filter, Finset.mem_filter]
    have hlen := List.toFinset_card_of_nodup hnd
    rw [htf] at hlen
    have hcard : ((Finset.range n).filter (fun i => F k i = 1)).card = m := by
      rw [Finset.card_filter]
      rw [← hrow k hk]
      refine Finset.sum_congr rfl (fun i hi => ?_)
      rcases hbin k hk i (Finset.mem_range.mp hi) with h0 | h1
      · rw [h0, if_neg (by omega)]
      · rw [h1, if_pos rfl]
    omega
  refine backtrack_complete n m (bTrans n L) hbt n 0 (fun _ => 0) (fun _ => 0)
    ((List.range n).map (fun r => (List.range n).filter (fun i => F r i = 1)))
    (by omega) h (by simp) ?_ ⟨?_, ?_⟩
  · intro row hrow'
    rcases List.mem_map.mp hrow' with ⟨k, hk, rfl⟩
    rw [List.mem_range] at hk
    exact ⟨(List.nodup_range n).filter _, hfillen k hk,
      fun i hi => List.mem_range.mp (List.mem_filter.mp hi).1⟩
  · intro i hi
    rw [cAdd_eq_sum]
    simp only [List.length_map, List.length_range, Nat.zero_add]
    rw [← hcols i hi]
    refine Finset.sum_congr rfl (fun k hk => ?_)
    rw [Finset.mem_range] at hk
    rw [hgetD k hk, count_of_nodup ((List.nodup_range n).filter _)]
    rcases hbin k hk i hi with h0 | h1
    · rw [h0, if_neg]
      simp only [List.mem_filter, List.mem_range, decide_eq_true_eq]
      omega
    · rw [h1, if_pos]
      simp only [List.mem_filter, List.mem_range, decide_eq_true_eq]
      exact ⟨hi, h1⟩
  · intro j hj
    rw [bAdd_eq_sum]
    simp only [List.length_map, List.length_range, Nat.zero_add]
    rw [← hbts j hj]
    refine Finset.sum_congr rfl (fun k hk => ?_)
    rw [Finset.mem_range] at hk
    rw [hgetD k hk]
    rcases hbin k hk (bTrans n L j k) (hbt j k hj) with h0 | h1
    · rw [h0, if_neg]
      simp only [List.mem_filter, List.mem_range, decide_eq_true_eq]
      omega
    · rw [h1, if_pos]
      simp only [List.mem_filter, List.mem_range, decide_eq_true_eq]
      exact ⟨hbt j k hj, h1⟩

/-- **C2 witness**: for the 2×2 cyclic Latin square the engine reports
Unsat, and indeed no balanced binary coloring exists. -/
theorem solve_backtrack_complete_witness :
    ¬ ∃ F : Nat → Nat → Nat,
      (∀ r < 2, ∀ i < 2, F r i = 0 ∨ F r i = 1) ∧
      (∀ r < 2, ∑ i ∈ Finset.range 2, F r i = 1) ∧
      (∀ i < 2, ∑ r ∈ Finset.range 2, F r i = 1) ∧
      (∀ j < 2, ∑ r ∈ Finset.range 2, F r (bTrans 2 L2 j r) = 1) :=
  solve_backtrack_complete 2 1 L2 (by decide) (by decide)

end BTComplete

/-! ## The opponent-counter classification rules and the outcome space -/

section ClassifyOutcome

/-- **C7 counterexample.** The claim that the engine applies the same
*three* rules — including the branch-prune test `counter + remain + 1 < m`
— to the opponent counters fails: at this state the opponent counter
satisfies the prune condition (`bc 0 = 0`, `remain = 0`, `m = 2`), so the
spec-modelled classification prunes, while the code's classification,
which never feeds opponent counters into the prune test, still returns a
`(forced, forbidden)` pair. -/
theorem classify_three_rules_counterexample :
    ¬ (classifyRow 1 2 0 0 (fun _ _ => 0) (fun _ => 1) (fun _ => 0) =
      classifyRowSpec 1 2 0 0 (fun _ _ => 0) (fun _ => 1) (fun _ => 0)) := by
  decide

/-- **C7 amended.** The engine applies the forbidden rule (`counter ≥ m`)
and the forced rule (`counter + remain < m`) to the opponent counters via
the index `T[j][r]`, with the same thresholds as for columns, but it does
not apply the branch-prune test to them: classification prunes exactly on
the column condition.  The omitted opponent prune is subsumed — whenever
an opponent counter satisfies `bc j + remain + 1 < m` at a row `r < n`,
the row's entire subtree fails the post-apply feasibility check and
`backtrack` answers `none`. -/
theorem classify_opponent_rules (n m remain r : Nat) (bt : Nat → Nat → Nat)
    (cc bc : Nat → Nat) :
    ((classifyRow n m remain r bt cc bc = none) ↔ colPrune n m remain cc) ∧
      (∀ forced forbidden,
        classifyRow n m remain r bt cc bc = some (forced, forbidden) →
          (∀ j < n, m ≤ bc j → bt j r ∈ forbidden) ∧
          (∀ j < n, bc j < m → bc j + remain < m → bt j r ∈ forced)) ∧
      (∀ fuel j, j < n → r < n → remain = n - r - 1 →
        bc j < m → bc j + remain + 1 < m →
        backtrack n m bt (fuel + 1) r cc bc = none) := by
  refine ⟨⟨classifyRow_none_elim, fun hp => by rw [classifyRow, if_pos hp]⟩, ?_, ?_⟩
  · intro forced forbidden hcl
    obtain ⟨hfeq, hbeq, _⟩ := classifyRow_some_elim hcl
    constructor
    · intro j hj hge
      rw [hbeq]
      refine Finset.mem_union_right _ (Finset.mem_image.mpr ⟨j, ?_, rfl⟩)
      exact Finset.mem_filter.mpr ⟨Finset.mem_range.mpr hj, hge⟩
    · intro j hj hlt hsum
      rw [hfeq]
      refine Finset.mem_union_right _ (Finset.mem_image.mpr ⟨j, ?_, rfl⟩)
      exact Finset.mem_filter.mpr ⟨Finset.mem_range.mpr hj, hlt, hsum⟩
  · intro fuel j hj hrn hrem hlt hsum
    rw [backtrack, if_neg (by omega : ¬ n ≤ r)]
    unfold btRow
    split
    next => rfl
    next forced forbidden heq =>
      split_ifs with h1 h2 h3 h4 <;> try rfl
      rw [List.findSome?_eq_none_iff]
      intro extra hextra
      rw [if_neg]
      intro hfeas
      obtain ⟨hb1, hb2⟩ := hfeas.2 j (Finset.mem_range.mpr hj)
      rw [applyB_apply] at hb1 hb2
      by_cases hc : j < n ∧ bt j r ∈ chosenOf n forced extra
      · rw [if_pos hc] at hb1 hb2; omega
      · rw [if_neg hc] at hb1 hb2; omega

/-- **C7 amended witness**: at a concrete state where an opponent counter
can no longer reach `m`, the engine's whole row subtree answers `none`. -/
theorem classify_opponent_rules_witness :
    backtrack 4 2 (fun _ _ => 0) 1 3 (fun _ => 0) (fun _ => 0) = none :=
  (classify_opponent_rules 4 2 0 3 (fun _ _ => 0) (fun _ => 0)
    (fun _ => 0)).2.2 0 0 (by decide) (by decide) (by decide) (by decide) (by decide)

/-- **C8 counterexample.** The backtracking engine has no third outcome:
there is no value of `solve_backtrack` that is distinct both from `none`
(Unsat) and from every `some rows` (Solved) — so no `Timeout` outcome
exists, for any budget. -/
theorem no_timeout_counterexample :
    ¬ ∃ o : Option (List (List Nat)),
      (∃ n m L, solve_backtrack n m L = o) ∧
        o ≠ none ∧ ∀ rows, o ≠ some rows := by
  rintro ⟨o, _, h1, h2⟩
  cases o with
  | none => exact h1 rfl
  | some rows => exact h2 rows rfl

/-- **C8 amended.** The engine supports no node-count/time cutoff: the
node counter and elapsed time of the Python code drive only progress
printing, and every run of `solve_backtrack` terminates with either
`Solved` (`some rows`) or `Unsat` (`none`); no `Timeout` outcome is ever
produced. -/
theorem solve_backtrack_two_outcomes (n m : Nat) (L : Nat → Nat → Nat) :
    solve_backtrack n m L = none ∨ ∃ rows, solve_backtrack n m L = some rows := by
  cases h : solve_backtrack n m L with
  | none => exact Or.inl rfl
  | some rows => exact Or.inr ⟨rows, rfl⟩

end ClassifyOutcome

/-! ## The local-search invariant -/

section SALemmas

lemma sum_diff_one (s : Finset Nat) (f f' : Nat → Int) (a : Nat) (ha : a ∈ s)
    (h : ∀ x ∈ s, x ≠ a → f' x = f x) :
    ∑ x ∈ s, f' x = (∑ x ∈ s, f x) + (f' a - f a) := by
  have hsub : ∑ x ∈ s, (f' x - f x) = f' a - f a := by
    refine Finset.sum_eq_single_of_mem a ha (fun b hb hne => ?_)
    rw [h b hb hne]
    ring
  rw [Finset.sum_sub_distrib] at hsub
  omega

lemma sum_diff_two (s : Finset Nat) (f f' : Nat → Int) (a b : Nat) (ha : a ∈ s)
    (hb : b ∈ s) (hab : a ≠ b)
    (h : ∀ x ∈ s, x ≠ a → x ≠ b → f' x = f x) :
    ∑ x ∈ s, f' x = (∑ x ∈ s, f x) + (f' a - f a) + (f' b - f b) := by
  have hsub : ∑ x ∈ s, (f' x - f x) = (f' a - f a) + (f' b - f b) := by
    have hss : ({a, b} : Finset Nat) ⊆ s := by
      intro x hx
      rcases Finset.mem_insert.mp hx with rfl | hx
      · exact ha
      · rw [Finset.mem_singleton] at hx
        exact hx ▸ hb
    rw [← Finset.sum_subset hss (fun x hx hnx => ?_)]
    · rw [Finset.sum_pair hab]
    · have hxa : x ≠ a := fun hc => hnx (by simp [hc])
      have hxb : x ≠ b := fun hc => hnx (by simp [hc])
      rw [h x hx hxa hxb]
      ring
  rw [Finset.sum_sub_distrib] at hsub
  omega

/-- Zero energy means every tracked counter is exactly `m`, and
conversely. -/
lemma energyOf_zero_iff (n : Nat) (m : Int) (cs bs : Nat → Int) :
    energyOf n m cs bs = 0 ↔ (∀ i < n, cs i = m) ∧ (∀ j < n, bs j = m) := by
  unfold energyOf
  constructor
  · intro h
    have h1 : ∀ x ∈ Finset.range n, (0 : Int) ≤ (cs x - m) ^ 2 :=
      fun x _ => sq_nonneg _
    have h2 : ∀ x ∈ Finset.range n, (0 : Int) ≤ (bs x - m) ^ 2 :=
      fun x _ => sq_nonneg _
    have hs1 : (0 : Int) ≤ ∑ i ∈ Finset.range n, (cs i - m) ^ 2 :=
      Finset.sum_nonneg h1
    have hs2 : (0 : Int) ≤ ∑ j ∈ Finset.range n, (bs j - m) ^ 2 :=
      Finset.sum_nonneg h2
    have hz1 : ∑ i ∈ Finset.range n, (cs i - m) ^ 2 = 0 := by omega
    have hz2 : ∑ j ∈ Finset.range n, (bs j - m) ^ 2 = 0 := by omega
    constructor
    · intro i hi
      have := (Finset.sum_eq_zero_iff_of_nonneg h1).mp hz1 i (Finset.mem_range.mpr hi)
      have := pow_eq_zero_iff (n := 2) (by omega) |>.mp this
      omega
    · intro j hj
      have := (Finset.sum_eq_zero_iff_of_nonneg h2).mp hz2 j (Finset.mem_range.mpr hj)
      have := pow_eq_zero_iff (n := 2) (by omega) |>.mp this
      omega
  · intro ⟨h1, h2⟩
    have hz1 : ∑ i ∈ Finset.range n, (cs i - m) ^ 2 = 0 :=
      Finset.sum_eq_zero (fun i hi => by
        rw [h1 i (Finset.mem_range.mp hi)]; ring)
    have hz2 : ∑ j ∈ Finset.range n, (bs j - m) ^ 2 = 0 :=
      Finset.sum_eq_zero (fun j hj => by
        rw [h2 j (Finset.mem_range.mp hj)]; ring)
    omega

lemma getD_mod_mem {l : List Nat} (h : l ≠ []) (k : Nat) :
    l.getD (k % l.length) 0 ∈ l := by
  have hlen : 0 < l.length := List.length_pos.mpr h
  have hk : k % l.length < l.length := Nat.mod_lt _ hlen
  rw [List.getD_eq_getElem _ _ hk]
  exact List.getElem_mem _

lemma onesRow_ne_nil {n : Nat} {m : Int} {F : Nat → Nat → Int} {r : Nat}
    (hbin : ∀ i < n, F r i = 0 ∨ F r i = 1)
    (hsum : ∑ i ∈ Finset.range n, F r i = m) (hm0 : 0 < m) :
    onesRow n F r ≠ [] := by
  intro hempty
  have hzero : ∑ i ∈ Finset.range n, F r i = 0 := by
    refine Finset.sum_eq_zero (fun i hi => ?_)
    rw [Finset.mem_range] at hi
    rcases hbin i hi with h0 | h1
    · exact h0
    · exfalso
      have : i ∈ onesRow n F r :=
        List.mem_filter.mpr ⟨List.mem_range.mpr hi, by simp [h1]⟩
      rw [hempty] at this
      cases this
  omega

lemma zerosRow_ne_nil {n : Nat} {m : Int} {F : Nat → Nat → Int} {r : Nat}
    (hbin : ∀ i < n, F r i = 0 ∨ F r i = 1)
    (hsum : ∑ i ∈ Finset.range n, F r i = m) (hmn : m < n) :
    zerosRow n F r ≠ [] := by
  intro hempty
  have hone : ∑ i ∈ Finset.range n, F r i = n := by
    have : ∀ i ∈ Finset.range n, F r i = 1 := by
      intro i hi
      rw [Finset.mem_range] at hi
      rcases hbin i hi with h0 | h1
      · exfalso
        have : i ∈ zerosRow n F r :=
          List.mem_filter.mpr ⟨List.mem_range.mpr hi, by simp [h0]⟩
        rw [hempty] at this
        cases this
      · exact h1
    rw [Finset.sum_congr rfl this]
    simp
  omega

/-- Membership facts for the move's picks. -/
lemma onesRow_mem {n : Nat} {F : Nat → Nat → Int} {r i : Nat}
    (h : i ∈ onesRow n F r) : i < n ∧ F r i = 1 := by
  obtain ⟨h1, h2⟩ := List.mem_filter.mp h
  exact ⟨List.mem_range.mp h1, by simpa using h2⟩

lemma zerosRow_mem {n : Nat} {F : Nat → Nat → Int} {r i : Nat}
    (h : i ∈ zerosRow n F r) : i < n ∧ F r i = 0 := by
  obtain ⟨h1, h2⟩ := List.mem_filter.mp h
  exact ⟨List.mem_range.mp h1, by simpa using h2⟩

/-- An accepted flip at a 1-cell `i1` and 0-cell `i0` of row `r` preserves
the full local-search invariant; in particular the O(1) delta computed
from the two touched columns and the touched opponent counters equals the
difference of the recomputed energies before and after the flip. -/
lemma flipState_inv (n : Nat) (m : Int) (bt : Nat → Nat → Nat) (s : SAState)
    (hinv : SAInv n m bt s) (r i1 i0 : Nat) (hr : r < n) (hi1 : i1 < n)
    (hi0 : i0 < n) (h1 : s.F r i1 = 1) (h0 : s.F r i0 = 0) :
    SAInv n m bt (flipState n bt s r i1 i0
      (dColOf m s.colSum i1 i0 + dBtOf n m bt s.btSum r i1 i0)) := by
  obtain ⟨hbin, hrow, hcol, hbt, hen⟩ := hinv
  set s' := flipState n bt s r i1 i0
    (dColOf m s.colSum i1 i0 + dBtOf n m bt s.btSum r i1 i0) with hs'
  have hne : i1 ≠ i0 := by
    intro hc
    rw [hc, h0] at h1
    exact absurd h1 (by norm_num)
  -- the updated components, pointwise
  have hF : ∀ r' i, s'.F r' i =
      if r' = r ∧ i = i0 then 1 else if r' = r ∧ i = i1 then 0 else s.F r' i :=
    fun _ _ => rfl
  have hCS : ∀ i, s'.colSum i =
      if i = i0 then s.colSum i0 + 1
      else if i = i1 then s.colSum i1 - 1 else s.colSum i := by
    intro i
    show Function.update (Function.update s.colSum i1 (s.colSum i1 - 1)) i0
      (Function.update s.colSum i1 (s.colSum i1 - 1) i0 + 1) i = _
    rcases eq_or_ne i i0 with rfl | hii0
    · rw [Function.update_same, if_pos rfl, Function.update_apply,
        if_neg (Ne.symm hne)]
    · rw [Function.update_apply, if_neg hii0, if_neg hii0, Function.update_apply]
  have hBS : ∀ j, s'.btSum j =
      if j < n ∧ bt j r = i1 then s.btSum j - 1
      else if j < n ∧ bt j r = i0 then s.btSum j + 1 else s.btSum j :=
    fun _ => rfl
  have hv0 : s'.F r i0 = 1 := by rw [hF, if_pos ⟨rfl, rfl⟩]
  have hv1 : s'.F r i1 = 0 := by
    rw [hF, if_neg (fun hc => hne hc.2), if_pos ⟨rfl, rfl⟩]
  -- rows other than `r` are untouched
  have hFrow : ∀ r' i, r' ≠ r → s'.F r' i = s.F r' i := by
    intro r' i hne'
    rw [hF, if_neg (fun hc => hne' hc.1), if_neg (fun hc => hne' hc.1)]
  refine ⟨?_, ?_, ?_, ?_, ?_⟩
  · -- binary
    intro r' hr' i hi'
    rw [hF]
    split_ifs with hc1 hc2
    · exact Or.inr rfl
    · exact Or.inl rfl
    · exact hbin r' hr' i hi'
  · -- row sums
    intro r' hr'
    rcases eq_or_ne r' r with rfl | hner
    · rw [sum_diff_two (Finset.range n) (s.F r') (s'.F r') i0 i1
        (Finset.mem_range.mpr hi0) (Finset.mem_range.mpr hi1) (Ne.symm hne)
        (fun x _ hx0 hx1 => by
          rw [hF, if_neg (fun hc => hx0 hc.2), if_neg (fun hc => hx1 hc.2)])]
      rw [hv0, hv1, h0, h1, hrow r' hr']
      ring
    · rw [Finset.sum_congr rfl (fun i _ => hFrow r' i hner)]
      exact hrow r' hr'
  · -- tracked column sums
    intro i hi
    rw [hCS]
    have hone : colSums n s'.F i =
        colSums n s.F i + (s'.F r i - s.F r i) := by
      unfold colSums
      exact sum_diff_one (Finset.range n) (fun r' => s.F r' i)
        (fun r' => s'.F r' i) r (Finset.mem_range.mpr hr)
        (fun x _ hx => hFrow x i hx)
    rcases eq_or_ne i i0 with rfl | hii0
    · rw [if_pos rfl, hone, hv0, h0, ← hcol i hi]
      ring
    · rcases eq_or_ne i i1 with rfl | hii1
      · rw [if_neg hii0, if_pos rfl, hone, hv1, h1, ← hcol i hi]
        ring
      · rw [if_neg hii0, if_neg hii1, hone, hF,
          if_neg (fun hc => hii0 hc.2), if_neg (fun hc => hii1 hc.2),
          ← hcol i hi]
        ring
  · -- tracked transversal sums
    intro j hj
    rw [hBS]
    have hone : btSums n bt s'.F j =
        btSums n bt s.F j + (s'.F r (bt j r) - s.F r (bt j r)) := by
      unfold btSums
      exact sum_diff_one (Finset.range n) (fun r' => s.F r' (bt j r'))
        (fun r' => s'.F r' (bt j r')) r (Finset.mem_range.mpr hr)
        (fun x _ hx => hFrow x (bt j x) hx)
    rcases eq_or_ne (bt j r) i1 with hc1 | hc1
    · rw [if_pos ⟨hj, hc1⟩, hone, hc1, hv1, h1, ← hbt j hj]
      ring
    · rcases eq_or_ne (bt j r) i0 with hc0 | hc0
      · rw [if_neg (fun hc => hc1 hc.2), if_pos ⟨hj, hc0⟩, hone, hc0, hv0, h0,
          ← hbt j hj]
        ring
      · rw [if_neg (fun hc => hc1 hc.2), if_neg (fun hc => hc0 hc.2), hone, hF,
          if_neg (fun hc => hc0 hc.2), if_neg (fun hc => hc1 hc.2), ← hbt j hj]
        ring
  · -- tracked energy equals the energy recomputed from the counters
    show s.energy + (dColOf m s.colSum i1 i0 + dBtOf n m bt s.btSum r i1 i0) =
      energyOf n m s'.colSum s'.btSum
    have hv1c : s'.colSum i1 = s.colSum i1 - 1 := by
      rw [hCS, if_neg hne, if_pos rfl]
    have hv0c : s'.colSum i0 = s.colSum i0 + 1 := by
      rw [hCS, if_pos rfl]
    have hcolpart : ∑ i ∈ Finset.range n, (s'.colSum i - m) ^ 2 =
        (∑ i ∈ Finset.range n, (s.colSum i - m) ^ 2) +
          dColOf m s.colSum i1 i0 := by
      rw [sum_diff_two (Finset.range n) (fun i => (s.colSum i - m) ^ 2)
        (fun i => (s'.colSum i - m) ^ 2) i1 i0
        (Finset.mem_range.mpr hi1) (Finset.mem_range.mpr hi0) hne
        (fun x _ hx1 hx0 => by
          show (s'.colSum x - m) ^ 2 = (s.colSum x - m) ^ 2
          rw [hCS, if_neg hx0, if_neg hx1])]
      rw [hv1c, hv0c]
      unfold dColOf
      ring
    have hbtpart : ∑ j ∈ Finset.range n, (s'.btSum j - m) ^ 2 =
        (∑ j ∈ Finset.range n, (s.btSum j - m) ^ 2) +
          dBtOf n m bt s.btSum r i1 i0 := by
      unfold dBtOf
      rw [← Finset.sum_add_distrib]
      refine Finset.sum_congr rfl (fun j hj => ?_)
      rw [Finset.mem_range] at hj
      rw [hBS]
      rcases eq_or_ne (bt j r) i1 with hc1 | hc1
      · rw [if_pos ⟨hj, hc1⟩, if_pos hc1]
        ring
      · rcases eq_or_ne (bt j r) i0 with hc0 | hc0
        · rw [if_neg (fun hc => hc1 hc.2), if_pos ⟨hj, hc0⟩, if_neg hc1,
            if_pos hc0]
          ring
        · rw [if_neg (fun hc => hc1 hc.2), if_neg (fun hc => hc0 hc.2),
            if_neg hc1, if_neg hc0]
          ring
    unfold energyOf at hen ⊢
    rw [hcolpart, hbtpart]
    linarith

/-- One proposed move — accepted or not — preserves the local-search
invariant. -/
lemma saStep_inv (n : Nat) (m : Int) (bt : Nat → Nat → Nat) (hm0 : 0 < m)
    (hmn : m < (n : Int)) (mv : SAMove) (s : SAState) (hinv : SAInv n m bt s) :
    SAInv n m bt (saStep n m bt mv s).2 := by
  have hn : 0 < n := by
    by_contra hc
    interval_cases n
    simp at hmn
    omega
  unfold saStep
  split_ifs with hacc
  · have hr : rowPick n mv < n := Nat.mod_lt _ hn
    have hbinr := hinv.1 _ hr
    have hsumr := hinv.2.1 _ hr
    have hone : onesRow n s.F (rowPick n mv) ≠ [] :=
      onesRow_ne_nil hbinr hsumr hm0
    have hzero : zerosRow n s.F (rowPick n mv) ≠ [] :=
      zerosRow_ne_nil hbinr hsumr hmn
    have h1 := onesRow_mem (n := n) (F := s.F) (r := rowPick n mv)
      (i := onePick n s.F mv) (getD_mod_mem hone mv.k1)
    have h0 := zerosRow_mem (n := n) (F := s.F) (r := rowPick n mv)
      (i := zeroPick n s.F mv) (getD_mod_mem hzero mv.k0)
    exact flipState_inv n m bt s hinv _ _ _ hr h1.1 h0.1 h1.2 h0.2
  · exact hinv

/-- Initialization satisfies the invariant: the counters and the energy
are computed from scratch. -/
lemma initState_inv (n : Nat) (m : Int) (bt : Nat → Nat → Nat)
    (F0 : Nat → Nat → Int) (hva : ValidInit n m F0) :
    SAInv n m bt (initState n m bt F0) :=
  ⟨hva.1, hva.2, fun _ _ => rfl, fun _ _ => rfl, rfl⟩

/-- The invariant holds after any sequence of proposed moves. -/
lemma saRun_inv (n : Nat) (m : Int) (bt : Nat → Nat → Nat) (hm0 : 0 < m)
    (hmn : m < (n : Int)) :
    ∀ (moves : List SAMove) (s : SAState), SAInv n m bt s →
      SAInv n m bt (saRun n m bt moves s)
  | [], _, h => h
  | mv :: rest, s, h =>
    saRun_inv n m bt hm0 hmn rest _ (saStep_inv n m bt hm0 hmn mv s h)

/-- Anything the annealing loop returns satisfies all three balance
families. -/
lemma saLoop_sound (n : Nat) (m : Int) (bt : Nat → Nat → Nat) (hm0 : 0 < m)
    (hmn : m < (n : Int)) :
    ∀ (moves : List SAMove) (s : SAState), SAInv n m bt s →
      ∀ F, saLoop n m bt moves s = some F →
        (∀ r < n, ∀ i < n, F r i = 0 ∨ F r i = 1) ∧
        (∀ r < n, ∑ i ∈ Finset.range n, F r i = m) ∧
        (∀ i < n, colSums n F i = m) ∧
        (∀ j < n, btSums n bt F j = m)
  | [], _, _, F, h => by cases h
  | mv :: rest, s, hinv, F, h => by
    rw [saLoop] at h
    have hinv' := saStep_inv n m bt hm0 hmn mv s hinv
    split_ifs at h with hc
    · cases h
      obtain ⟨hb, hrw, hcs, hbs, hen⟩ := hinv'
      have h0 : energyOf n m (saStep n m bt mv s).2.colSum
          (saStep n m bt mv s).2.btSum = 0 := by rw [← hen]; exact hc.2
      obtain ⟨hc1, hc2⟩ := (energyOf_zero_iff n m _ _).mp h0
      refine ⟨hb, hrw, fun i hi => ?_, fun j hj => ?_⟩
      · rw [← hcs i hi]
        exact hc1 i hi
      · rw [← hbs j hj]
        exact hc2 j hj
    · exact saLoop_sound n m bt hm0 hmn rest _ hinv' F h

/-- **C3.** Soundness of the local-search engine: whenever `solve_sa`
returns a matrix `F`, all three balance families hold of it — every row
sum, column sum, and opponent-transversal sum equals `m`; and the energy
`Σ(col_sum−m)² + Σ(opp_sum−m)²` of any coloring is zero exactly when its
column and opponent sums are all `m`, so the engine (which returns only at
`energy == 0`) returns only feasible colorings. -/
theorem solve_sa_sound (n : Nat) (m : Int) (L : Nat → Nat → Nat)
    (hm0 : 0 < m) (hmn : m < (n : Int))
    (attempts : List ((Nat → Nat → Int) × List SAMove))
    (hinit : ∀ p ∈ attempts, ValidInit n m p.1)
    (F : Nat → Nat → Int) (h : solve_sa n m L attempts = some F) :
    ((∀ r < n, ∀ i < n, F r i = 0 ∨ F r i = 1) ∧
      (∀ r < n, ∑ i ∈ Finset.range n, F r i = m) ∧
      (∀ i < n, colSums n F i = m) ∧
      (∀ j < n, btSums n (bTrans n L) F j = m)) ∧
    ∀ G : Nat → Nat → Int,
      energyOf n m (colSums n G) (btSums n (bTrans n L) G) = 0 ↔
        (∀ i < n, colSums n G i = m) ∧ (∀ j < n, btSums n (bTrans n L) G j = m) := by
  refine ⟨?_, fun G => energyOf_zero_iff n m _ _⟩
  obtain ⟨a, hmem, ha⟩ := List.exists_of_findSome?_eq_some h
  have hva := hinit a hmem
  have hinv := initState_inv n m (bTrans n L) a.1 hva
  unfold saAttempt at ha
  split_ifs at ha with he
  · cases ha
    obtain ⟨hc1, hc2⟩ := (energyOf_zero_iff n m _ _).mp he
    exact ⟨hva.1, hva.2, hc1, hc2⟩
  · exact saLoop_sound n m (bTrans n L) hm0 hmn a.2 _ hinv F ha

/-- **C3 witness**: an attempt whose shuffled initial matrix is already
feasible converges immediately on the 4×4 instance. -/
theorem solve_sa_sound_witness :
    ((∀ r < 4, ∀ i < 4, F4sa r i = 0 ∨ F4sa r i = 1) ∧
      (∀ r < 4, ∑ i ∈ Finset.range 4, F4sa r i = 2) ∧
      (∀ i < 4, colSums 4 F4sa i = 2) ∧
      (∀ j < 4, btSums 4 (bTrans 4 L4) F4sa j = 2)) ∧
    ∀ G : Nat → Nat → Int,
      energyOf 4 2 (colSums 4 G) (btSums 4 (bTrans 4 L4) G) = 0 ↔
        (∀ i < 4, colSums 4 G i = 2) ∧ (∀ j < 4, btSums 4 (bTrans 4 L4) G j = 2) :=
  solve_sa_sound 4 2 L4 (by decide) (by decide) [(F4sa, [])] (by decide) F4sa rfl

/-- **C5.** Incremental-energy invariant: at initialization and after
every sequence of proposed moves (each accepted move committing the O(1)
delta), the incrementally tracked energy equals the energy recomputed
from scratch over the current `F`. -/
theorem sa_energy_invariant (n : Nat) (m : Int) (bt : Nat → Nat → Nat)
    (hm0 : 0 < m) (hmn : m < (n : Int)) (F0 : Nat → Nat → Int)
    (hva : ValidInit n m F0) (moves : List SAMove) :
    (saRun n m bt moves (initState n m bt F0)).energy =
      energyOf n m (colSums n (saRun n m bt moves (initState n m bt F0)).F)
        (btSums n bt (saRun n m bt moves (initState n m bt F0)).F) := by
  obtain ⟨_, _, hcs, hbs, hen⟩ :=
    saRun_inv n m bt hm0 hmn moves _ (initState_inv n m bt F0 hva)
  rw [hen]
  unfold energyOf
  congr 1
  · refine Finset.sum_congr rfl (fun i hi => ?_)
    rw [hcs i (Finset.mem_range.mp hi)]
  · refine Finset.sum_congr rfl (fun j hj => ?_)
    rw [hbs j (Finset.mem_range.mp hj)]

/-- **C5 witness**: one proposed move on the 2×2 boundary instance keeps
the tracked energy equal to the recomputed energy. -/
theorem sa_energy_invariant_witness :
    (saRun 2 1 (bTrans 2 L2) [⟨0, 0, 0, true, true⟩]
        (initState 2 1 (bTrans 2 L2) F0w)).energy =
      energyOf 2 1
        (colSums 2 (saRun 2 1 (bTrans 2 L2) [⟨0, 0, 0, true, true⟩]
          (initState 2 1 (bTrans 2 L2) F0w)).F)
        (btSums 2 (bTrans 2 L2) (saRun 2 1 (bTrans 2 L2) [⟨0, 0, 0, true, true⟩]
          (initState 2 1 (bTrans 2 L2) F0w)).F) :=
  sa_energy_invariant 2 1 (bTrans 2 L2) (by decide) (by decide) F0w (by decide)
    [⟨0, 0, 0, true, true⟩]

/-- **C6.** Row-sum invariant of the local-search engine: immediately
after initialization (each row a shuffled vector of `m` ones and `n − m`
zeros) and after every sequence of proposed moves (each accepted move
flipping one 1-entry to 0 and one 0-entry to 1 within the same row), every
row of `F` sums to exactly `m`. -/
theorem sa_row_sum_invariant (n : Nat) (m : Int) (bt : Nat → Nat → Nat)
    (hm0 : 0 < m) (hmn : m < (n : Int)) (F0 : Nat → Nat → Int)
    (hva : ValidInit n m F0) (moves : List SAMove) :
    ∀ r < n,
      ∑ i ∈ Finset.range n, (saRun n m bt moves (initState n m bt F0)).F r i = m :=
  (saRun_inv n m bt hm0 hmn moves _ (initState_inv n m bt F0 hva)).2.1

/-- **C6 witness**: both rows still sum to `m = 1` after two proposed
moves on the 2×2 boundary instance. -/
theorem sa_row_sum_invariant_witness :
    (∑ i ∈ Finset.range 2,
      (saRun 2 1 (bTrans 2 L2) [⟨1, 1, 1, false, true⟩, ⟨0, 0, 0, true, false⟩]
        (initState 2 1 (bTrans 2 L2) F0w)).F 0 i = 1) ∧
    ∑ i ∈ Finset.range 2,
      (saRun 2 1 (bTrans 2 L2) [⟨1, 1, 1, false, true⟩, ⟨0, 0, 0, true, false⟩]
        (initState 2 1 (bTrans 2 L2) F0w)).F 1 i = 1 :=
  ⟨sa_row_sum_invariant 2 1 (bTrans 2 L2) (by decide) (by decide) F0w (by decide)
    [⟨1, 1, 1, false, true⟩, ⟨0, 0, 0, true, false⟩] 0 (by decide),
  sa_row_sum_invariant 2 1 (bTrans 2 L2) (by decide) (by decide) F0w (by decide)
    [⟨1, 1, 1, false, true⟩, ⟨0, 0, 0, true, false⟩] 1 (by decide)⟩

end SALemmas

/-! ## Soundness of the random Latin-square generator -/

section Generator

lemma injOn_of_nodup_map {α : Type} [DecidableEq α] {n : Nat} {f : Nat → α}
    (hnd : ((List.range n).map f).Nodup) :
    ∀ a < n, ∀ b < n, f a = f b → a = b := by
  intro a ha b hb hab
  have := @List.Nodup.getElem_inj_iff _ _ hnd a (by simpa using ha) b
    (by simpa using hb)
  simpa [hab] using this.mp (by simpa using hab)

lemma buildRow_sound (colAvail : Nat → List Nat) (pairUsed : Nat → Nat → Bool)
    (choice : Nat → Nat) :
    ∀ (order : List Nat) (perm0 perm : Nat → Option Nat),
      buildRow colAvail pairUsed choice order perm0 = some perm →
      (∀ i ∈ order, ∃ j, perm i = some j ∧ j ∈ colAvail i) ∧
      (∀ i, i ∉ order → perm i = perm0 i)
  | [], perm0, perm, h => by
    cases h
    exact ⟨by simp, fun _ _ => rfl⟩
  | i :: rest, perm0, perm, h => by
    rw [buildRow] at h
    split_ifs at h with hcand
    obtain ⟨ih1, ih2⟩ := buildRow_sound colAvail pairUsed choice rest _ _ h
    have hjmem : ((colAvail i).filter (fun j => ¬ pairUsed i j)).getD
        (choice i % ((colAvail i).filter (fun j => ¬ pairUsed i j)).length) 0 ∈
        (colAvail i).filter (fun j => ¬ pairUsed i j) :=
      getD_mod_mem hcand _
    have hjca := (List.mem_filter.mp hjmem).1
    constructor
    · intro x hx
      by_cases hxr : x ∈ rest
      · exact ih1 x hxr
      · rcases List.mem_cons.mp hx with rfl | hxr'
        · refine ⟨_, ?_, hjca⟩
          rw [ih2 x hxr, Function.update_same]
        · exact absurd hxr' hxr
    · intro x hx
      have hxi : x ≠ i := fun hc => hx (hc ▸ List.mem_cons_self i rest)
      have hxr : x ∉ rest := fun hc => hx (List.mem_cons_of_mem i hc)
      rw [ih2 x hxr, Function.update_apply, if_neg hxi]

lemma mkRows_sound (n : Nat) (orders : Nat → List Nat) (choices : Nat → Nat → Nat) :
    ∀ (rs : List Nat) (colAvail : Nat → List Nat) (pairUsed : Nat → Nat → Bool)
      (rows : List (List Nat)),
      mkRows n orders choices rs colAvail pairUsed = some rows →
      (∀ r ∈ rs, (orders r).Perm (List.range n)) →
      (∀ i, (colAvail i).Nodup) →
      (∀ i, ∀ v ∈ colAvail i, v < n) →
      rows.length = rs.length ∧
      (∀ row ∈ rows, row.Perm (List.range n)) ∧
      (∀ i < n, (rows.map (fun row => row.getD i 0)).Nodup ∧
        ∀ v ∈ rows.map (fun row => row.getD i 0), v ∈ colAvail i)
  | [], colAvail, pairUsed, rows, h, _, _, _ => by
    cases h
    exact ⟨rfl, by simp, fun i _ => ⟨List.nodup_nil, by simp⟩⟩
  | r :: rs', colAvail, pairUsed, rows, h, hord, hnd, hca => by
    rw [mkRows] at h
    split at h
    next => cases h
    next perm hbuild =>
      split_ifs at h with hded
      obtain ⟨rest, hrec, rfl⟩ := Option.map_eq_some'.mp h
      obtain ⟨hassign, _⟩ :=
        buildRow_sound colAvail pairUsed (choices r) (orders r) _ _ hbuild
      have hordr := hord r (List.mem_cons_self r rs')
      -- every cell of the row is assigned a value from its column's pool
      have hval : ∀ i < n, ∃ j, perm i = some j ∧ j ∈ colAvail i := by
        intro i hi
        exact hassign i (hordr.mem_iff.mpr (List.mem_range.mpr hi))
      -- the `len(set(perm)) == n` check makes the row's cells distinct
      have hpermnd : ((List.range n).map perm).Nodup := by
        have hsub := List.dedup_sublist ((List.range n).map perm)
        have hlen : ((List.range n).map perm).dedup.length =
            ((List.range n).map perm).length := by
          simp only [List.length_map, List.length_range]
          omega
        rw [← hsub.eq_of_length hlen]
        exact List.nodup_dedup _
      have hrowval : ∀ i < n, (perm i).getD 0 ∈ colAvail i := by
        intro i hi
        obtain ⟨j, hj, hjca⟩ := hval i hi
        rw [hj]
        exact hjca
      have hrownd : ((List.range n).map (fun i => (perm i).getD 0)).Nodup := by
        refine List.Nodup.map_on ?_ (List.nodup_range n)
        intro a ha b hb hab
        rw [List.mem_range] at ha hb
        obtain ⟨ja, hja, _⟩ := hval a ha
        obtain ⟨jb, hjb, _⟩ := hval b hb
        refine injOn_of_nodup_map hpermnd a ha b hb ?_
        rw [hja, hjb]
        rw [hja, hjb] at hab
        simpa using hab
      have hrowperm : ((List.range n).map (fun i => (perm i).getD 0)).Perm
          (List.range n) := by
        refine perm_range_of_nodup_of_lt hrownd (by simp) ?_
        intro x hx
        rcases List.mem_map.mp hx with ⟨i, hi, rfl⟩
        exact hca i _ (hrowval i (List.mem_range.mp hi))
      have hgetDrow : ∀ i, i < n →
          ((List.range n).map (fun i => (perm i).getD 0)).getD i 0 =
            (perm i).getD 0 := by
        intro i hi
        rw [List.getD_eq_getElem _ _ (by simpa using hi), List.getElem_map,
          List.getElem_range]
      obtain ⟨ihlen, ihperm, ihcol⟩ := mkRows_sound n orders choices rs' _ _ rest
        hrec (fun q hq => hord q (List.mem_cons_of_mem r hq))
        (fun i => by
          split_ifs with hi
          · exact (hnd i).erase _
          · exact hnd i)
        (fun i v hv => by
          split_ifs at hv with hi
          · exact hca i v (List.mem_of_mem_erase hv)
          · exact hca i v hv)
      refine ⟨by simp [ihlen], ?_, ?_⟩
      · intro row hrow
        rcases List.mem_cons.mp hrow with rfl | hrow
        · exact hrowperm
        · exact ihperm row hrow
      · intro i hi
        obtain ⟨ihnd, ihmem⟩ := ihcol i hi
        have hheadv : ((List.range n).map (fun i => (perm i).getD 0)).getD i 0 =
            (perm i).getD 0 := hgetDrow i hi
        have hnotmem : (perm i).getD 0 ∉
            rest.map (fun row => row.getD i 0) := by
          intro hc
          have := ihmem _ hc
          rw [if_pos hi] at this
          exact ((hnd i).mem_erase_iff.mp this).1 rfl
        constructor
        · rw [List.map_cons, hheadv]
          exact List.nodup_cons.mpr ⟨hnotmem, ihnd⟩
        · intro v hv
          rw [List.map_cons, hheadv] at hv
          rcases List.mem_cons.mp hv with rfl | hv
          · exact hrowval i hi
          · have := ihmem v hv
            rw [if_pos hi] at this
            exact List.mem_of_mem_erase this

lemma nodup_getD_inj {l : List Nat} (h : l.Nodup) {a b : Nat}
    (ha : a < l.length) (hb : b < l.length)
    (heq : l.getD a 0 = l.getD b 0) : a = b := by
  rw [List.getD_eq_getElem _ _ ha, List.getD_eq_getElem _ _ hb] at heq
  exact (List.Nodup.getElem_inj_iff h).mp heq

lemma mem_getD {l : List Nat} {a : Nat} (h : a ∈ l) :
    ∃ k, k < l.length ∧ l.getD k 0 = a := by
  obtain ⟨k, hk, hval⟩ := List.getElem_of_mem h
  exact ⟨k, hk, by rw [List.getD_eq_getElem _ _ hk]; exact hval⟩

/-- **C10.** Every non-`None` matrix produced by the random Latin-square
generator is a valid Latin square: it has `n` rows, every row and every
column is a permutation of `[0,n)`, and every pair `(i, L[r][i])` occurs
for exactly one round `r`.  The `rng.shuffle` contract is the hypothesis
that each traversal order is a permutation of `[0,n)`; the `rng.choice`
picks are arbitrary. -/
theorem make_random_ls_sound (n : Nat) (orders : Nat → List Nat)
    (choices : Nat → Nat → Nat)
    (hord : ∀ r < n, (orders r).Perm (List.range n))
    (L : List (List Nat)) (h : make_random_ls n orders choices = some L) :
    L.length = n ∧
      (∀ row ∈ L, row.Perm (List.range n)) ∧
      (∀ i < n, (L.map (fun row => row.getD i 0)).Perm (List.range n)) ∧
      (∀ i < n, ∀ j < n, ∃! r, r < n ∧ (L.getD r []).getD i 0 = j) := by
  obtain ⟨hlen, hrows, hcols⟩ := mkRows_sound n orders choices (List.range n)
    (fun _ => List.range n) (fun _ _ => false) L h
    (fun r hr => hord r (List.mem_range.mp hr))
    (fun _ => List.nodup_range n)
    (fun i v hv => List.mem_range.mp hv)
  rw [List.length_range] at hlen
  have hcolperm : ∀ i < n,
      (L.map (fun row => row.getD i 0)).Perm (List.range n) := by
    intro i hi
    obtain ⟨hndc, hmemc⟩ := hcols i hi
    refine perm_range_of_nodup_of_lt hndc (by simp [hlen]) ?_
    intro v hv
    exact List.mem_range.mp (hmemc v hv)
  refine ⟨hlen, hrows, hcolperm, ?_⟩
  intro i hi j hj
  have hndc := (hcols i hi).1
  have hlc : (L.map (fun row => row.getD i 0)).length = n := by simp [hlen]
  have htrans : ∀ k, k < n →
      (L.map (fun row => row.getD i 0)).getD k 0 = (L.getD k []).getD i 0 := by
    intro k hk
    rw [List.getD_eq_getElem _ _ (by omega : k < (L.map _).length),
      List.getElem_map, List.getD_eq_getElem _ _ (by omega : k < L.length)]
  have hjmem : j ∈ L.map (fun row => row.getD i 0) :=
    (hcolperm i hi).mem_iff.mpr (List.mem_range.mpr hj)
  obtain ⟨r, hrlt, hrval⟩ := mem_getD hjmem
  have hrn : r < n := by omega
  refine ⟨r, ⟨hrn, by rw [← htrans r hrn]; exact hrval⟩, ?_⟩
  rintro y ⟨hy, hyval⟩
  refine nodup_getD_inj hndc (by omega : y < (L.map _).length)
    (by omega : r < (L.map _).length) ?_
  rw [htrans y hy, hyval, hrval]

/-- **C10 witness**: a concrete oracle run of the generator at `n = 2`
returns `[[0,1],[1,0]]`, which the theorem certifies as a Latin square. -/
theorem make_random_ls_sound_witness :
    [[0, 1], [1, 0]].length = 2 ∧
      (∀ row ∈ [[0, 1], [1, 0]], row.Perm (List.range 2)) ∧
      (∀ i < 2, ([[0, 1], [1, 0]].map (fun row => row.getD i 0)).Perm
        (List.range 2)) ∧
      (∀ i < 2, ∀ j < 2, ∃! r, r < 2 ∧
        ([[0, 1], [1, 0]].getD r []).getD i 0 = j) :=
  make_random_ls_sound 2 (fun _ => [0, 1]) (fun _ i => i) (by decide)
    [[0, 1], [1, 0]] (by decide)

end Generator

end MathTournament
